import Mathlib

/-!
# Verification of the rgl-dnd grid layout engine

This file embeds the layout engine of the rgl-dnd repository
(`src/components/Layout.tsx` together with the layout utilities it uses)
as executable Lean definitions, and proves or refutes the frozen claims
about it.

The component `Layout.tsx` is embedded from its source.  The utility
functions (`compact`, `moveElement`, `reLayout`, `isEqual`, ...) live in a
module that is not part of the available sources, so they are modelled
from the specification's descriptions; each such definition carries a
`Modelled from the spec:` doc comment.
-/

namespace RglDnd

/-- One card's grid placement (`LayoutItem` in `src/types`): id `i`,
top-left grid cell `x`/`y`, size `w`/`h`, the `static` obstacle flag and
the transient mid-drag `placeholder` flag.  Grid coordinates are
non-negative integers, embedded as `Nat`. -/
structure LayoutItem where
  i : String
  x : Nat
  y : Nat
  w : Nat
  h : Nat
  static : Bool := false
  placeholder : Bool := false
  deriving Repr, DecidableEq

/-- Gap-removal direction of a grid (`CompactType`). -/
inductive CompactType where
  | vertical
  | horizontal
  | none
  deriving Repr, DecidableEq

/-- Modelled from the spec: `collides(a, b)` is true iff the rectangles
`[a.x, a.x+a.w) × [a.y, a.y+a.h)` and the one for `b` intersect on both
axes and `a.id ≠ b.id`. -/
def collides (a b : LayoutItem) : Bool :=
  a.i ≠ b.i && a.x < b.x + b.w && b.x < a.x + a.w
    && a.y < b.y + b.h && b.y < a.y + a.h

/-- Modelled from the spec: `getAllCollisions(layout, item)` lists all
items of `layout` colliding with `item`, in the layout's stored order. -/
def getAllCollisions (layout : List LayoutItem) (item : LayoutItem) :
    List LayoutItem :=
  layout.filter (fun l => collides l item)

/-- Sort key used by the Compactor: `(y, x)` for vertical compaction,
`(x, y)` for horizontal. -/
def itemKey (t : CompactType) (l : LayoutItem) : Nat × Nat :=
  match t with
  | .horizontal => (l.x, l.y)
  | _ => (l.y, l.x)

/-- Lexicographic comparison of sort keys, as a boolean. -/
def keyLe (p q : Nat × Nat) : Bool :=
  p.1 < q.1 || (p.1 = q.1 && p.2 ≤ q.2)

/-- Comparator on indexed layout items, by sort key of the item. -/
def entryLe (t : CompactType) (p q : Nat × LayoutItem) : Bool :=
  keyLe (itemKey t p.2) (itemKey t q.2)

/-- The coordinate along the compaction axis. -/
def axisPos (t : CompactType) (l : LayoutItem) : Nat :=
  match t with
  | .horizontal => l.x
  | _ => l.y

/-- Replace the coordinate along the compaction axis. -/
def setAxisPos (t : CompactType) (v : Nat) (l : LayoutItem) : LayoutItem :=
  match t with
  | .horizontal => { l with x := v }
  | _ => { l with y := v }

/-- Horizontal compaction additionally re-clamps `x` into `[0, cols − w]`
(truncated subtraction); vertical compaction performs no clamping. -/
def clampItem (t : CompactType) (cols : Nat) (l : LayoutItem) : LayoutItem :=
  match t with
  | .horizontal => { l with x := min l.x (cols - l.w) }
  | _ => l

/-- An item is blocked at a candidate position when it collides with some
already-placed item. -/
def blockedAt (placed : List LayoutItem) (l : LayoutItem) : Bool :=
  placed.any (fun p => collides p l)

@[simp] theorem axisPos_setAxisPos (t : CompactType) (v : Nat)
    (l : LayoutItem) : axisPos t (setAxisPos t v l) = v := by
  cases t <;> rfl

/-- One-cell slide steps, with explicit fuel; the fuel is always at least
the axis coordinate, which decreases by one on every step. -/
def slideAux (t : CompactType) (placed : List LayoutItem) :
    Nat → LayoutItem → LayoutItem
  | 0, l => l
  | fuel + 1, l =>
    if axisPos t l = 0 then l
    else if blockedAt placed (setAxisPos t (axisPos t l - 1) l) then l
    else slideAux t placed fuel (setAxisPos t (axisPos t l - 1) l)

/-- Modelled from the spec: slide an item toward the origin along the
compaction axis one cell at a time, while the coordinate is positive and
the resulting rectangle collides with no previously-placed item; stop at
the first position where the next step would collide, or at 0. -/
def slide (t : CompactType) (placed : List LayoutItem) (l : LayoutItem) :
    LayoutItem :=
  slideAux t placed (axisPos t l) l

/-- Modelled from the spec: place one non-static item during compaction —
re-clamp (horizontal only), then slide toward the origin. -/
def compactItem (t : CompactType) (cols : Nat) (placed : List LayoutItem)
    (l : LayoutItem) : LayoutItem :=
  slide t placed (clampItem t cols l)

/-- Process the sorted non-static items in order; each placed item becomes
an obstacle for the later ones.  Entries carry their index in the original
layout list. -/
def placeAll (t : CompactType) (cols : Nat) (placed : List LayoutItem) :
    List (Nat × LayoutItem) → List (Nat × LayoutItem)
  | [] => []
  | e :: rest =>
    (e.1, compactItem t cols placed e.2) ::
      placeAll t cols (placed ++ [compactItem t cols placed e.2]) rest

/-- The non-static items of a layout, each paired with its position in
the layout list (successive positions starting at `n`). -/
def indexed (n : Nat) : List LayoutItem → List (Nat × LayoutItem)
  | [] => []
  | l :: rest =>
    if l.static then indexed (n + 1) rest
    else (n, l) :: indexed (n + 1) rest

/-- Rebuild the layout list in its original order: statics are copied
through unmodified, each non-static position takes its processed item
from `done` (or is left unchanged when absent). -/
def reassemble (n : Nat) (layout : List LayoutItem)
    (done : List (Nat × LayoutItem)) : List LayoutItem :=
  match layout with
  | [] => []
  | l :: rest =>
    (if l.static then l
     else
       match done.find? (fun q => q.1 == n) with
       | some q => q.2
       | Option.none => l) :: reassemble (n + 1) rest done

/-- Insert an element into a list, in front of the first element it
compares `le` to (the insertion step of a stable insertion sort). -/
def insertEntry {α : Type} (le : α → α → Bool) (x : α) :
    List α → List α
  | [] => [x]
  | y :: ys => if le x y then x :: y :: ys else y :: insertEntry le x ys

/-- Stable insertion sort.  (A stable sort is fully determined by the
comparator and the input order, so this agrees with any other stable
sort, and unlike well-founded recursions it evaluates by `decide`.) -/
def insertionSort {α : Type} (le : α → α → Bool) : List α → List α
  | [] => []
  | x :: l => insertEntry le x (insertionSort le l)

/-- Modelled from the spec: `compact(layout, compactType, cols)` removes
gaps: statics are fixed obstacles, non-static items are sorted by the
compaction comparator (a stable sort) and slid toward the origin in that
order; `none` performs no reordering and no movement.  The output keeps
each item at its original list position, with only `x`/`y` changed. -/
def compact (layout : List LayoutItem) (t : CompactType) (cols : Nat) :
    List LayoutItem :=
  match t with
  | .none => layout
  | _ =>
    let statics := layout.filter (fun l => l.static)
    let sorted := insertionSort (entryLe t) (indexed 0 layout)
    reassemble 0 layout (placeAll t cols statics sorted)

/-! ## Axis view of items

For the compaction proofs it is convenient to read an item through the
compaction axis: `axisPos`/`axisExt` are the coordinate and extent along
the compaction axis, `sndPos`/`sndExt` along the other axis. -/

/-- Extent along the compaction axis. -/
def axisExt (t : CompactType) (l : LayoutItem) : Nat :=
  match t with
  | .horizontal => l.w
  | _ => l.h

/-- Coordinate along the secondary axis. -/
def sndPos (t : CompactType) (l : LayoutItem) : Nat :=
  match t with
  | .horizontal => l.y
  | _ => l.x

/-- Extent along the secondary axis. -/
def sndExt (t : CompactType) (l : LayoutItem) : Nat :=
  match t with
  | .horizontal => l.h
  | _ => l.w

@[simp] theorem i_setAxisPos (t : CompactType) (v : Nat) (l : LayoutItem) :
    (setAxisPos t v l).i = l.i := by cases t <;> rfl

@[simp] theorem static_setAxisPos (t : CompactType) (v : Nat)
    (l : LayoutItem) : (setAxisPos t v l).static = l.static := by
  cases t <;> rfl

@[simp] theorem placeholder_setAxisPos (t : CompactType) (v : Nat)
    (l : LayoutItem) : (setAxisPos t v l).placeholder = l.placeholder := by
  cases t <;> rfl

@[simp] theorem axisExt_setAxisPos (t : CompactType) (v : Nat)
    (l : LayoutItem) : axisExt t (setAxisPos t v l) = axisExt t l := by
  cases t <;> rfl

@[simp] theorem sndPos_setAxisPos (t : CompactType) (v : Nat)
    (l : LayoutItem) : sndPos t (setAxisPos t v l) = sndPos t l := by
  cases t <;> rfl

@[simp] theorem sndExt_setAxisPos (t : CompactType) (v : Nat)
    (l : LayoutItem) : sndExt t (setAxisPos t v l) = sndExt t l := by
  cases t <;> rfl

@[simp] theorem w_setAxisPos (t : CompactType) (v : Nat) (l : LayoutItem) :
    (setAxisPos t v l).w = l.w := by cases t <;> rfl

@[simp] theorem h_setAxisPos (t : CompactType) (v : Nat) (l : LayoutItem) :
    (setAxisPos t v l).h = l.h := by cases t <;> rfl

theorem setAxisPos_self (t : CompactType) (l : LayoutItem) :
    setAxisPos t (axisPos t l) l = l := by cases t <;> rfl

theorem setAxisPos_setAxisPos (t : CompactType) (v u : Nat)
    (l : LayoutItem) :
    setAxisPos t v (setAxisPos t u l) = setAxisPos t v l := by
  cases t <;> rfl

theorem itemKey_eq (t : CompactType) (l : LayoutItem) :
    itemKey t l = (axisPos t l, sndPos t l) := by cases t <;> rfl

/-- `collides` read through the compaction axis: ids differ and the two
rectangles overlap along both axes. -/
theorem collides_iff (t : CompactType) (a b : LayoutItem) :
    collides a b = true ↔
      a.i ≠ b.i ∧
      axisPos t a < axisPos t b + axisExt t b ∧
      axisPos t b < axisPos t a + axisExt t a ∧
      sndPos t a < sndPos t b + sndExt t b ∧
      sndPos t b < sndPos t a + sndExt t a := by
  cases t <;>
    · simp only [collides, axisPos, axisExt, sndPos, sndExt,
        Bool.and_eq_true, decide_eq_true_eq, ne_eq]
      tauto

/-! ## Comparator facts -/

theorem keyLe_trans : ∀ a b c : Nat × Nat,
    keyLe a b → keyLe b c → keyLe a c := by
  intro a b c hab hbc
  simp only [keyLe, Bool.or_eq_true, Bool.and_eq_true, decide_eq_true_eq]
    at hab hbc ⊢
  omega

theorem keyLe_total : ∀ a b : Nat × Nat, keyLe a b || keyLe b a := by
  intro a b
  simp only [keyLe, Bool.or_eq_true, Bool.and_eq_true, decide_eq_true_eq]
  omega

theorem entryLe_trans (t : CompactType) :
    ∀ a b c : Nat × LayoutItem,
      entryLe t a b → entryLe t b c → entryLe t a c := by
  intro a b c
  exact keyLe_trans _ _ _

theorem entryLe_total (t : CompactType) :
    ∀ a b : Nat × LayoutItem, entryLe t a b || entryLe t b a := by
  intro a b
  exact keyLe_total _ _

/-- Strict lexicographic order on sort keys. -/
def keyLt (p q : Nat × Nat) : Prop :=
  p.1 < q.1 ∨ (p.1 = q.1 ∧ p.2 < q.2)

theorem keyLt_of_axis_lt (t : CompactType) {a b : LayoutItem}
    (h : axisPos t a < axisPos t b) : keyLt (itemKey t a) (itemKey t b) := by
  rw [itemKey_eq, itemKey_eq]
  exact Or.inl h

theorem not_keyLe_of_keyLt {p q : Nat × Nat} (h : keyLt p q) :
    ¬ (keyLe q p = true) := by
  rcases h with h | ⟨h1, h2⟩ <;>
    · simp only [keyLe, Bool.or_eq_true, Bool.and_eq_true,
        decide_eq_true_eq]
      omega

theorem keyLe_refl (p : Nat × Nat) : keyLe p p = true := by
  simp [keyLe]

/-! ## Slide lemmas -/

theorem blockedAt_iff {placed : List LayoutItem} {l : LayoutItem} :
    blockedAt placed l = true ↔ ∃ p ∈ placed, collides p l = true := by
  simp [blockedAt]

theorem slideAux_eq_setAxisPos (t : CompactType) (placed : List LayoutItem) :
    ∀ (fuel : Nat) (l : LayoutItem),
      slideAux t placed fuel l =
        setAxisPos t (axisPos t (slideAux t placed fuel l)) l ∧
      axisPos t (slideAux t placed fuel l) ≤ axisPos t l := by
  intro fuel
  induction fuel with
  | zero =>
    intro l
    exact ⟨(setAxisPos_self t l).symm, Nat.le_refl _⟩
  | succ fuel ih =>
    intro l
    rw [slideAux]
    by_cases h0 : axisPos t l = 0
    · rw [if_pos h0]
      exact ⟨(setAxisPos_self t l).symm, Nat.le_refl _⟩
    rw [if_neg h0]
    by_cases hb : blockedAt placed (setAxisPos t (axisPos t l - 1) l) = true
    · rw [if_pos hb]
      exact ⟨(setAxisPos_self t l).symm, Nat.le_refl _⟩
    rw [if_neg hb]
    obtain ⟨h1, h2⟩ := ih (setAxisPos t (axisPos t l - 1) l)
    refine ⟨?_, ?_⟩
    · conv_lhs => rw [h1]
      rw [setAxisPos_setAxisPos]
    · refine h2.trans ?_
      simp only [axisPos_setAxisPos]
      omega

theorem slide_eq_setAxisPos (t : CompactType) (placed : List LayoutItem)
    (l : LayoutItem) :
    slide t placed l = setAxisPos t (axisPos t (slide t placed l)) l ∧
      axisPos t (slide t placed l) ≤ axisPos t l := by
  rw [slide]
  exact slideAux_eq_setAxisPos t placed (axisPos t l) l

theorem slideAux_stop (t : CompactType) (placed : List LayoutItem) :
    ∀ (fuel : Nat) (l : LayoutItem), axisPos t l ≤ fuel →
      axisPos t (slideAux t placed fuel l) = 0 ∨
        blockedAt placed
          (setAxisPos t (axisPos t (slideAux t placed fuel l) - 1)
            (slideAux t placed fuel l)) = true := by
  intro fuel
  induction fuel with
  | zero =>
    intro l hle
    rw [slideAux]
    exact Or.inl (by omega)
  | succ fuel ih =>
    intro l hle
    rw [slideAux]
    by_cases h0 : axisPos t l = 0
    · rw [if_pos h0]
      exact Or.inl h0
    rw [if_neg h0]
    by_cases hb : blockedAt placed (setAxisPos t (axisPos t l - 1) l) = true
    · rw [if_pos hb]
      exact Or.inr hb
    rw [if_neg hb]
    refine ih (setAxisPos t (axisPos t l - 1) l) ?_
    simp only [axisPos_setAxisPos]
    omega

theorem slide_stop (t : CompactType) (placed : List LayoutItem)
    (l : LayoutItem) :
    axisPos t (slide t placed l) = 0 ∨
      blockedAt placed
        (setAxisPos t (axisPos t (slide t placed l) - 1)
          (slide t placed l)) = true := by
  rw [slide]
  exact slideAux_stop t placed (axisPos t l) l (Nat.le_refl _)

theorem slideAux_final_free (t : CompactType) (placed : List LayoutItem) :
    ∀ (fuel : Nat) (l : LayoutItem),
      axisPos t (slideAux t placed fuel l) < axisPos t l →
      blockedAt placed (slideAux t placed fuel l) = false := by
  intro fuel
  induction fuel with
  | zero =>
    intro l hlt
    rw [slideAux] at hlt ⊢
    omega
  | succ fuel ih =>
    intro l hlt
    rw [slideAux] at hlt ⊢
    by_cases h0 : axisPos t l = 0
    · rw [if_pos h0] at hlt ⊢
      omega
    rw [if_neg h0] at hlt ⊢
    by_cases hb : blockedAt placed (setAxisPos t (axisPos t l - 1) l) = true
    · rw [if_pos hb] at hlt ⊢
      omega
    rw [if_neg hb] at hlt ⊢
    by_cases hlt2 : axisPos t (slideAux t placed fuel
        (setAxisPos t (axisPos t l - 1) l))
        < axisPos t (setAxisPos t (axisPos t l - 1) l)
    · exact ih _ hlt2
    · obtain ⟨h1, h2⟩ := slideAux_eq_setAxisPos t placed fuel
        (setAxisPos t (axisPos t l - 1) l)
      have heq : axisPos t (slideAux t placed fuel
          (setAxisPos t (axisPos t l - 1) l)) = axisPos t l - 1 := by
        simp only [axisPos_setAxisPos] at h2 hlt2
        omega
      rw [h1, heq, setAxisPos_setAxisPos, Bool.eq_false_iff]
      exact hb

theorem slide_final_free (t : CompactType) (placed : List LayoutItem)
    (l : LayoutItem)
    (hlt : axisPos t (slide t placed l) < axisPos t l) :
    blockedAt placed (slide t placed l) = false := by
  rw [slide] at hlt ⊢
  exact slideAux_final_free t placed (axisPos t l) l hlt

theorem slide_of_stopped (t : CompactType) (placed : List LayoutItem)
    (l : LayoutItem)
    (h : axisPos t l = 0 ∨
      blockedAt placed (setAxisPos t (axisPos t l - 1) l) = true) :
    slide t placed l = l := by
  rw [slide]
  cases hv : axisPos t l with
  | zero => rfl
  | succ v =>
    rw [slideAux]
    rcases h with h0 | hb
    · rw [if_pos h0]
    · by_cases h0 : axisPos t l = 0
      · rw [if_pos h0]
      · rw [if_neg h0, if_pos hb]

/-- A superset of obstacles blocks at least as much. -/
theorem blockedAt_mono {placed₁ placed₂ : List LayoutItem}
    {l : LayoutItem} (hsub : ∀ p ∈ placed₁, p ∈ placed₂)
    (h : blockedAt placed₁ l = true) : blockedAt placed₂ l = true := by
  rw [blockedAt_iff] at h ⊢
  obtain ⟨p, hp, hc⟩ := h
  exact ⟨p, hsub p hp, hc⟩

/-! ## Clamp lemmas -/

theorem clampItem_eq_self_of_le (t : CompactType) {cols : Nat}
    {l : LayoutItem} (h : l.x + l.w ≤ cols) : clampItem t cols l = l := by
  cases t with
  | horizontal =>
    simp only [clampItem]
    have h2 : min l.x (cols - l.w) = l.x := by omega
    rw [h2]
  | vertical => rfl
  | none => rfl

theorem clampItem_eq_self_anti {t : CompactType} {cols : Nat}
    {lo X : LayoutItem} (hlo : clampItem t cols lo = lo)
    (hax : axisPos t X ≤ axisPos t lo) (hw : X.w = lo.w) :
    clampItem t cols X = X := by
  cases t with
  | horizontal =>
    simp only [clampItem] at hlo ⊢
    have h1 : min lo.x (cols - lo.w) = lo.x := congrArg LayoutItem.x hlo
    have hax' : X.x ≤ lo.x := hax
    have h2 : min X.x (cols - X.w) = X.x := by rw [hw]; omega
    rw [h2]
  | vertical => rfl
  | none => rfl

/-! ## placeAll lemmas -/

theorem placeAll_append (t : CompactType) (cols : Nat)
    (placed : List LayoutItem) (S₁ S₂ : List (Nat × LayoutItem)) :
    placeAll t cols placed (S₁ ++ S₂) =
      placeAll t cols placed S₁ ++
        placeAll t cols
          (placed ++ (placeAll t cols placed S₁).map Prod.snd) S₂ := by
  induction S₁ generalizing placed with
  | nil => simp [placeAll]
  | cons e rest ih =>
    rw [List.cons_append, placeAll, placeAll, List.map_cons, ih,
      ← List.append_cons]
    rfl

theorem placeAll_map_fst (t : CompactType) (cols : Nat)
    (placed : List LayoutItem) (S : List (Nat × LayoutItem)) :
    (placeAll t cols placed S).map Prod.fst = S.map Prod.fst := by
  induction S generalizing placed with
  | nil => rfl
  | cons e rest ih => simp [placeAll, ih]

theorem mem_placeAll {t : CompactType} {cols : Nat}
    {placed : List LayoutItem} {S : List (Nat × LayoutItem)}
    {k : Nat} {X : LayoutItem}
    (h : (k, X) ∈ placeAll t cols placed S) :
    ∃ S₁ lo S₂, S = S₁ ++ (k, lo) :: S₂ ∧
      X = compactItem t cols
        (placed ++ (placeAll t cols placed S₁).map Prod.snd) lo := by
  induction S generalizing placed with
  | nil => simp [placeAll] at h
  | cons e rest ih =>
    rw [placeAll, List.mem_cons] at h
    rcases h with h | h
    · have hk : k = e.1 := congrArg Prod.fst h
      have hX : X = compactItem t cols placed e.2 := congrArg Prod.snd h
      refine ⟨[], e.2, rest, ?_, ?_⟩
      · rw [List.nil_append, hk]
      · rw [hX, placeAll, List.map_nil, List.append_nil]
    · obtain ⟨S₁, lo, S₂, hS, hX⟩ := ih h
      refine ⟨e :: S₁, lo, S₂, by rw [hS]; rfl, ?_⟩
      rw [hX, placeAll, List.map_cons, ← List.append_cons]

theorem placeAll_fix {t : CompactType} {cols : Nat}
    {placed : List LayoutItem} {S : List (Nat × LayoutItem)}
    (H : ∀ S₁ e S₂, S = S₁ ++ e :: S₂ →
      compactItem t cols (placed ++ S₁.map Prod.snd) e.2 = e.2) :
    placeAll t cols placed S = S := by
  induction S generalizing placed with
  | nil => rfl
  | cons e rest ih =>
    have h0 : compactItem t cols placed e.2 = e.2 := by
      have h := H [] e rest rfl
      rwa [List.map_nil, List.append_nil] at h
    rw [placeAll, h0]
    refine congrArg₂ _ rfl (ih ?_)
    intro S₁ f S₂ hS
    have h := H (e :: S₁) f S₂ (by rw [hS]; rfl)
    rwa [List.map_cons, List.append_cons placed e.2] at h

/-! ## indexed lemmas -/

theorem mem_indexed {n : Nat} {L : List LayoutItem} {k : Nat}
    {a : LayoutItem} (h : (k, a) ∈ indexed n L) :
    ∃ j, ∃ hj : j < L.length,
      k = n + j ∧ L.get ⟨j, hj⟩ = a ∧ a.static = false := by
  induction L generalizing n with
  | nil => simp [indexed] at h
  | cons l rest ih =>
    by_cases hs : l.static
    · rw [indexed, if_pos hs] at h
      obtain ⟨j, hj, hk, hget, hns⟩ := ih h
      exact ⟨j + 1, by simpa using hj, by omega, hget, hns⟩
    · rw [indexed, if_neg hs] at h
      rcases List.mem_cons.mp h with h | h
      · have hk : k = n := congrArg Prod.fst h
        have ha : a = l := congrArg Prod.snd h
        refine ⟨0, by simp, by omega, ?_, ?_⟩
        · rw [ha]; rfl
        · rw [ha]; simpa using hs
      · obtain ⟨j, hj, hk, hget, hns⟩ := ih h
        exact ⟨j + 1, by simpa using hj, by omega, hget, hns⟩

theorem mem_indexed_of_get {n : Nat} {L : List LayoutItem} {j : Nat}
    (hj : j < L.length) (hns : (L.get ⟨j, hj⟩).static = false) :
    (n + j, L.get ⟨j, hj⟩) ∈ indexed n L := by
  induction L generalizing n j with
  | nil => simp at hj
  | cons l rest ih =>
    cases j with
    | zero =>
      have hs : l.static = false := hns
      rw [indexed, if_neg (by simp [hs])]
      exact List.mem_cons_self _ _
    | succ j =>
      have hj' : j < rest.length := by simpa using hj
      have hmem := ih (n := n + 1) hj' hns
      by_cases hs : l.static
      · rw [indexed, if_pos hs]
        have : n + (j + 1) = (n + 1) + j := by omega
        rw [this]
        exact hmem
      · rw [indexed, if_neg hs]
        refine List.mem_cons_of_mem _ ?_
        have : n + (j + 1) = (n + 1) + j := by omega
        rw [this]
        exact hmem

theorem indexed_fst_ge {n : Nat} {L : List LayoutItem} :
    ∀ e ∈ indexed n L, n ≤ e.1 := by
  induction L generalizing n with
  | nil => simp [indexed]
  | cons l rest ih =>
    intro e he
    by_cases hs : l.static
    · rw [indexed, if_pos hs] at he
      exact (by omega : n ≤ n + 1).trans (ih e he)
    · rw [indexed, if_neg hs] at he
      rcases List.mem_cons.mp he with rfl | he
      · exact Nat.le_refl n
      · exact (by omega : n ≤ n + 1).trans (ih e he)

theorem indexed_pairwise_fst (n : Nat) (L : List LayoutItem) :
    (indexed n L).Pairwise (fun a b => a.1 < b.1) := by
  induction L generalizing n with
  | nil => exact List.Pairwise.nil
  | cons l rest ih =>
    by_cases hs : l.static
    · rw [indexed, if_pos hs]; exact ih (n + 1)
    · rw [indexed, if_neg hs]
      refine List.Pairwise.cons ?_ (ih (n + 1))
      intro e he
      have := indexed_fst_ge e he
      omega

theorem nodup_of_pairwise_fst_lt {l : List (Nat × LayoutItem)}
    (h : l.Pairwise (fun a b => a.1 < b.1)) : l.Nodup := by
  refine h.imp ?_
  intro a b hab
  intro he
  rw [he] at hab
  omega

/-! ## reassemble lemmas -/

theorem reassemble_length (n : Nat) (L : List LayoutItem)
    (D : List (Nat × LayoutItem)) :
    (reassemble n L D).length = L.length := by
  induction L generalizing n with
  | nil => rfl
  | cons l rest ih => simp [reassemble, ih]

theorem find?_fst_eq {D : List (Nat × LayoutItem)} {k : Nat} {p : LayoutItem}
    (hnd : (D.map Prod.fst).Nodup) (hmem : (k, p) ∈ D) :
    D.find? (fun q => q.1 == k) = some (k, p) := by
  induction D with
  | nil => simp at hmem
  | cons e rest ih =>
    simp only [List.map_cons, List.nodup_cons] at hnd
    rcases List.mem_cons.mp hmem with rfl | hmem'
    · rw [List.find?_cons_of_pos _ (by simp)]
    · have hne : (e.1 == k) = false := by
        refine beq_eq_false_iff_ne.mpr ?_
        intro hk
        exact hnd.1 (hk ▸ List.mem_map_of_mem Prod.fst hmem')
      rw [List.find?_cons_of_neg _ (by simp [hne])]
      exact ih hnd.2 hmem'

theorem reassemble_fix {n : Nat} {L : List LayoutItem}
    {D : List (Nat × LayoutItem)}
    (H : ∀ q ∈ D, ∀ j, ∀ hj : j < L.length,
      q.1 = n + j → q.2 = L.get ⟨j, hj⟩) :
    reassemble n L D = L := by
  induction L generalizing n with
  | nil => rfl
  | cons l rest ih
  =>
    rw [reassemble]
    refine congrArg₂ _ ?_ (ih ?_)
    · by_cases hs : l.static
      · rw [if_pos hs]
      · rw [if_neg hs]
        cases hf : D.find? (fun q => q.1 == n) with
        | none => rfl
        | some q =>
          have hq := List.mem_of_find?_eq_some hf
          have hq1 : q.1 = n := by
            have := List.find?_some hf
            simpa using this
          exact H q hq 0 (by simp) (by omega)
    · intro q hq j hj hqj
      exact H q hq (j + 1) (by simpa using hj) (by omega)

theorem reassemble_get_nonstatic {n : Nat} {L : List LayoutItem}
    {D : List (Nat × LayoutItem)} {j : Nat} {p : LayoutItem}
    (hnd : (D.map Prod.fst).Nodup) (hmem : (n + j, p) ∈ D)
    (hj : j < L.length) (hns : (L.get ⟨j, hj⟩).static = false) :
    (reassemble n L D).get ⟨j, by rw [reassemble_length]; exact hj⟩ = p := by
  induction L generalizing n j with
  | nil => simp at hj
  | cons l rest ih =>
    cases j with
    | zero =>
      have hs : l.static = false := hns
      have hn : n + 0 = n := by omega
      rw [hn] at hmem
      show (if l.static then l else _) = p
      rw [if_neg (by simp [hs]), find?_fst_eq hnd hmem]
    | succ j =>
      have hj' : j < rest.length := by simpa using hj
      have hmem' : ((n + 1) + j, p) ∈ D := by
        have : n + (j + 1) = (n + 1) + j := by omega
        rwa [this] at hmem
      exact ih hmem' hj' hns

theorem reassemble_get_static {n : Nat} {L : List LayoutItem}
    {D : List (Nat × LayoutItem)} {j : Nat}
    (hj : j < L.length) (hst : (L.get ⟨j, hj⟩).static = true) :
    (reassemble n L D).get ⟨j, by rw [reassemble_length]; exact hj⟩ =
      L.get ⟨j, hj⟩ := by
  induction L generalizing n j with
  | nil => simp at hj
  | cons l rest ih =>
    cases j with
    | zero =>
      have hst' : l.static = true := hst
      show (if l.static then l else _) = _
      rw [if_pos hst']
      rfl
    | succ j =>
      have hj' : j < rest.length := by simpa using hj
      exact ih hj' hst

theorem reassemble_static_flag {n : Nat} {L : List LayoutItem}
    {D : List (Nat × LayoutItem)} {j : Nat}
    (hD : ∀ q ∈ D, q.2.static = false)
    (hj : j < L.length) :
    ((reassemble n L D).get
        ⟨j, by rw [reassemble_length]; exact hj⟩).static =
      (L.get ⟨j, hj⟩).static := by
  induction L generalizing n j with
  | nil => simp at hj
  | cons l rest ih =>
    cases j with
    | zero =>
      show (if l.static then l else _).static = l.static
      by_cases hs : l.static
      · rw [if_pos hs]
      · rw [if_neg hs]
        cases hf : D.find? (fun q => q.1 == n) with
        | none => rfl
        | some q =>
          rw [hD q (List.mem_of_find?_eq_some hf)]
          simp [Bool.not_eq_true] at hs
          rw [hs]
    | succ j =>
      have hj' : j < rest.length := by simpa using hj
      exact ih hj'

theorem reassemble_filter_static {n : Nat} {L : List LayoutItem}
    {D : List (Nat × LayoutItem)}
    (hD : ∀ q ∈ D, q.2.static = false) :
    (reassemble n L D).filter (fun l => l.static) =
      L.filter (fun l => l.static) := by
  induction L generalizing n with
  | nil => rfl
  | cons l rest ih =>
    rw [reassemble]
    by_cases hs : l.static
    · rw [if_pos hs]
      rw [List.filter_cons, List.filter_cons, if_pos (by simpa using hs),
        if_pos (by simpa using hs), ih]
    · rw [if_neg hs]
      have hsf : l.static = false := by simpa using hs
      cases hf : D.find? (fun q => q.1 == n) with
      | none =>
        rw [List.filter_cons, List.filter_cons]
        simp only [hsf]
        exact ih
      | some q =>
        have hq := hD q (List.mem_of_find?_eq_some hf)
        rw [List.filter_cons, List.filter_cons]
        simp only [hsf, hq]
        exact ih

/-! ## Sublist order toolkit -/

theorem pair_sublist_of_decomp {α : Type} {l A B C : List α} {x y : α}
    (h : l = A ++ x :: (B ++ y :: C)) : List.Sublist [x, y] l := by
  subst h
  have h1 : List.Sublist [y] (B ++ y :: C) := by
    refine List.Sublist.trans ?_ (List.sublist_append_right B (y :: C))
    exact List.Sublist.cons₂ y (List.nil_sublist C)
  have h2 : List.Sublist [x, y] (x :: (B ++ y :: C)) := List.Sublist.cons₂ x h1
  have h3 : List.Sublist (([] : List α) ++ [x, y]) (A ++ (x :: (B ++ y :: C))) :=
    List.Sublist.append (List.nil_sublist A) h2
  simp only [List.nil_append] at h3
  exact h3

theorem pair_sublist_antisym {α : Type} {l : List α} (hnd : l.Nodup)
    {x y : α} (h1 : List.Sublist [x, y] l) (h2 : List.Sublist [y, x] l) : False := by
  induction l with
  | nil => simp at h1
  | cons z rest ih =>
    rw [List.nodup_cons] at hnd
    cases h1 with
    | cons _ h1' =>
      have hyr : y ∈ rest := h1'.subset (by simp)
      have hrec := ih hnd.2 h1'
      cases h2 with
      | cons _ h2' => exact hrec h2'
      | cons₂ _ h2' => exact hnd.1 hyr
    | cons₂ _ h1' =>
      have hyr : y ∈ rest := h1'.subset (by simp)
      cases h2 with
      | cons _ h2' =>
        exact hnd.1 (h2'.subset (by simp))
      | cons₂ _ h2' => exact hnd.1 hyr

theorem pair_sublist_of_pairwise_lt {l : List (Nat × LayoutItem)}
    (hpw : l.Pairwise (fun a b => a.1 < b.1)) {x y : Nat × LayoutItem}
    (hx : x ∈ l) (hy : y ∈ l) (hlt : x.1 < y.1) : List.Sublist [x, y] l := by
  induction l with
  | nil => simp at hx
  | cons z rest ih =>
    rw [List.pairwise_cons] at hpw
    rcases List.mem_cons.mp hx with rfl | hx'
    · rcases List.mem_cons.mp hy with rfl | hy'
      · omega
      · exact List.Sublist.cons₂ _ (List.singleton_sublist.mpr hy')
    · rcases List.mem_cons.mp hy with rfl | hy'
      · have := hpw.1 x hx'
        omega
      · exact List.Sublist.cons _ (ih hpw.2 hx' hy')

theorem mem_pre_of_pair_sublist {l pre post : List (Nat × LayoutItem)}
    (hnd : l.Nodup) {p x : Nat × LayoutItem}
    (hdec : l = pre ++ x :: post) (hsub : List.Sublist [p, x] l) : p ∈ pre := by
  have hp : p ∈ l := hsub.subset (by simp)
  rw [hdec] at hp
  rcases List.mem_append.mp hp with hp | hp
  · exact hp
  rcases List.mem_cons.mp hp with rfl | hp
  · exfalso
    have hnd2 := hsub.nodup hnd
    simp at hnd2
  · exfalso
    obtain ⟨B, C, hBC⟩ := List.append_of_mem hp
    refine pair_sublist_antisym hnd hsub ?_
    refine pair_sublist_of_decomp (A := pre) (B := B) (C := C) ?_
    rw [hdec, hBC]

theorem rel_of_pairwise_decomp {α : Type} {R : α → α → Prop}
    {l A B C : List α} {a b : α}
    (hpw : l.Pairwise R) (hdec : l = A ++ a :: (B ++ b :: C)) : R a b := by
  rw [hdec] at hpw
  have h1 := List.pairwise_cons.mp (List.pairwise_append.mp hpw).2.1
  exact h1.1 b (List.mem_append_right _ (List.mem_cons_self _ _))

theorem mem_pre_of_keyLt {t : CompactType}
    {l pre post : List (Nat × LayoutItem)}
    {p x : Nat × LayoutItem}
    (hpw : l.Pairwise (fun a b => entryLe t a b = true))
    (hdec : l = pre ++ x :: post) (hp : p ∈ l)
    (hlt : keyLt (itemKey t p.2) (itemKey t x.2)) : p ∈ pre := by
  rw [hdec] at hp hpw
  rcases List.mem_append.mp hp with h | h
  · exact h
  rcases List.mem_cons.mp h with rfl | h
  · exact absurd (keyLe_refl _) (not_keyLe_of_keyLt hlt)
  · exfalso
    have hpw2 := (List.pairwise_append.mp hpw).2.1
    rw [List.pairwise_cons] at hpw2
    exact (not_keyLe_of_keyLt hlt) (hpw2.1 p h)

/-! ## Stable insertion sort lemmas -/

theorem insertEntry_perm {α : Type} (le : α → α → Bool) (x : α)
    (s : List α) : List.Perm (insertEntry le x s) (x :: s) := by
  induction s with
  | nil => exact List.Perm.refl _
  | cons y ys ih =>
    rw [insertEntry]
    by_cases h : le x y = true
    · rw [if_pos h]
    · rw [if_neg h]
      exact List.Perm.trans (List.Perm.cons y ih) (List.Perm.swap x y ys)

theorem insertionSort_perm {α : Type} (le : α → α → Bool) (l : List α) :
    List.Perm (insertionSort le l) l := by
  induction l with
  | nil => exact List.Perm.refl _
  | cons x l ih =>
    rw [insertionSort]
    exact List.Perm.trans (insertEntry_perm le x _) (List.Perm.cons x ih)

theorem mem_insertEntry {α : Type} {le : α → α → Bool} {x a : α}
    {s : List α} : a ∈ insertEntry le x s ↔ a = x ∨ a ∈ s := by
  rw [(insertEntry_perm le x s).mem_iff]
  exact List.mem_cons

theorem insertEntry_pairwise {α : Type} {le : α → α → Bool}
    (htrans : ∀ a b c, le a b → le b c → le a c)
    (htotal : ∀ a b, le a b || le b a)
    {s : List α} (hs : s.Pairwise (fun a b => le a b = true)) (x : α) :
    (insertEntry le x s).Pairwise (fun a b => le a b = true) := by
  induction s with
  | nil =>
    rw [insertEntry]
    exact List.pairwise_singleton _ _
  | cons y ys ih =>
    rw [List.pairwise_cons] at hs
    rw [insertEntry]
    by_cases h : le x y = true
    · rw [if_pos h]
      refine List.Pairwise.cons ?_ (List.Pairwise.cons hs.1 hs.2)
      intro b hb
      rcases List.mem_cons.mp hb with rfl | hb
      · exact h
      · exact htrans x y b h (hs.1 b hb)
    · rw [if_neg h]
      have hyx : le y x = true := by
        rcases Bool.or_eq_true_iff.mp (htotal x y) with h1 | h1
        · exact absurd h1 h
        · exact h1
      refine List.Pairwise.cons ?_ (ih hs.2)
      intro b hb
      rcases mem_insertEntry.mp hb with rfl | hb
      · exact hyx
      · exact hs.1 b hb

theorem insertionSort_pairwise {α : Type} {le : α → α → Bool}
    (htrans : ∀ a b c, le a b → le b c → le a c)
    (htotal : ∀ a b, le a b || le b a) (l : List α) :
    (insertionSort le l).Pairwise (fun a b => le a b = true) := by
  induction l with
  | nil => exact List.Pairwise.nil
  | cons x l ih =>
    rw [insertionSort]
    exact insertEntry_pairwise htrans htotal ih x

theorem sublist_insertEntry {α : Type} (le : α → α → Bool) (x : α)
    (s : List α) : List.Sublist s (insertEntry le x s) := by
  induction s with
  | nil => exact List.nil_sublist _
  | cons y ys ih =>
    rw [insertEntry]
    by_cases h : le x y = true
    · rw [if_pos h]
      exact List.Sublist.cons x (List.Sublist.refl _)
    · rw [if_neg h]
      exact List.Sublist.cons₂ y ih

theorem pair_sublist_insertEntry {α : Type} {le : α → α → Bool} {x b : α}
    {s : List α} (hab : le x b = true) (hb : b ∈ s) :
    List.Sublist [x, b] (insertEntry le x s) := by
  induction s with
  | nil => simp at hb
  | cons y ys ih =>
    rw [insertEntry]
    by_cases h : le x y = true
    · rw [if_pos h]
      exact List.Sublist.cons₂ x (List.singleton_sublist.mpr hb)
    · rw [if_neg h]
      rcases List.mem_cons.mp hb with rfl | hb2
      · exact absurd hab h
      · exact List.Sublist.cons y (ih hb2)

/-- Stability of the insertion sort, in pair form: a pair that is in
order both by position and by the comparator stays in that order. -/
theorem pair_sublist_insertionSort {α : Type} {le : α → α → Bool}
    {l : List α} {a b : α} (hab : le a b = true)
    (hsub : List.Sublist [a, b] l) :
    List.Sublist [a, b] (insertionSort le l) := by
  induction l with
  | nil => simp at hsub
  | cons x l ih =>
    rw [insertionSort]
    cases hsub with
    | cons _ h2 =>
      exact (ih h2).trans (sublist_insertEntry le x _)
    | cons₂ _ h2 =>
      refine pair_sublist_insertEntry hab ?_
      exact (insertionSort_perm le l).mem_iff.mpr
        (List.singleton_sublist.mp h2)

/-! ## Pass-one entry analysis -/

theorem compact_eq_of_ne_none {t : CompactType} (ht : t ≠ CompactType.none)
    (L : List LayoutItem) (cols : Nat) :
    compact L t cols =
      reassemble 0 L (placeAll t cols (L.filter (fun l => l.static))
        (insertionSort (entryLe t) (indexed 0 L))) := by
  cases t with
  | vertical => rfl
  | horizontal => rfl
  | none => exact absurd rfl ht

theorem compactItem_spec {t : CompactType} {cols : Nat}
    {placed : List LayoutItem} {lo : LayoutItem}
    (hcl : clampItem t cols lo = lo) :
    compactItem t cols placed lo =
      setAxisPos t (axisPos t (compactItem t cols placed lo)) lo ∧
    axisPos t (compactItem t cols placed lo) ≤ axisPos t lo ∧
    (axisPos t (compactItem t cols placed lo) = 0 ∨
      blockedAt placed
        (setAxisPos t (axisPos t (compactItem t cols placed lo) - 1)
          (compactItem t cols placed lo)) = true) ∧
    (axisPos t (compactItem t cols placed lo) < axisPos t lo →
      blockedAt placed (compactItem t cols placed lo) = false) := by
  rw [compactItem, hcl]
  exact ⟨(slide_eq_setAxisPos t placed lo).1,
    (slide_eq_setAxisPos t placed lo).2,
    slide_stop t placed lo, slide_final_free t placed lo⟩

/-- A blocker that collides with the cell above/left of an item's final
position, but not with the final position itself, sits strictly closer to
the origin along the compaction axis. -/
theorem blocker_below {t : CompactType} {p X : LayoutItem}
    (hep : 1 ≤ axisExt t p)
    (h1 : collides p (setAxisPos t (axisPos t X - 1) X) = true)
    (h2 : collides p X = false) :
    axisPos t p < axisPos t X := by
  have h1' := (collides_iff t p (setAxisPos t (axisPos t X - 1) X)).mp h1
  simp only [i_setAxisPos, axisPos_setAxisPos, axisExt_setAxisPos,
    sndPos_setAxisPos, sndExt_setAxisPos] at h1'
  obtain ⟨hne, ho1, ho2, ho3, ho4⟩ := h1'
  have h2' : ¬ (collides p X = true) := by simp [h2]
  by_contra hcon
  push_neg at hcon
  exact h2' ((collides_iff t p X).mpr
    ⟨hne, by omega, by omega, ho3, ho4⟩)

/-- Every processed entry of a compaction pass: its original item is a
non-static member of the layout, only the axis coordinate changed (and
only toward the origin), the final position is blocked or at the origin,
and if the item moved its final cell is collision-free. -/
theorem entry_facts {t : CompactType} {cols : Nat}
    {statics : List LayoutItem} {L : List LayoutItem}
    {sorted₁ S₁ S₂ : List (Nat × LayoutItem)} {k : Nat} {lo X : LayoutItem}
    (hs1 : sorted₁ = insertionSort (entryLe t) (indexed 0 L))
    (hdec : sorted₁ = S₁ ++ (k, lo) :: S₂)
    (hX : X = compactItem t cols
      (statics ++ (placeAll t cols statics S₁).map Prod.snd) lo)
    (hcl : ∀ l ∈ L, clampItem t cols l = l) :
    lo ∈ L ∧ lo.static = false ∧ (k, lo) ∈ indexed 0 L ∧
    X = setAxisPos t (axisPos t X) lo ∧ axisPos t X ≤ axisPos t lo ∧
    (axisPos t X = 0 ∨
      blockedAt (statics ++ (placeAll t cols statics S₁).map Prod.snd)
        (setAxisPos t (axisPos t X - 1) X) = true) ∧
    (axisPos t X < axisPos t lo →
      blockedAt (statics ++ (placeAll t cols statics S₁).map Prod.snd)
        X = false) := by
  have hmem1 : (k, lo) ∈ sorted₁ := by
    rw [hdec]
    exact List.mem_append_right _ (List.mem_cons_self _ _)
  have hmemIdx : (k, lo) ∈ indexed 0 L := by
    rw [hs1] at hmem1
    exact (insertionSort_perm (entryLe t) (indexed 0 L)).mem_iff.mp hmem1
  obtain ⟨j, hj, hk, hget, hns⟩ := mem_indexed hmemIdx
  have hloL : lo ∈ L := by
    rw [← hget]
    exact L.get_mem _ _
  have hspec := @compactItem_spec t cols
    (statics ++ (placeAll t cols statics S₁).map Prod.snd) lo
    (hcl lo hloL)
  rw [← hX] at hspec
  exact ⟨hloL, hns, hmemIdx, hspec.1, hspec.2.1, hspec.2.2.1, hspec.2.2.2⟩

/-! ## The idempotence core -/

/-- Re-running a compaction pass over the output of a previous pass leaves
every processed entry unchanged. -/
theorem pass2_fixed {t : CompactType} {cols : Nat} {L : List LayoutItem}
    {statics : List LayoutItem}
    {sorted₁ done₁ sorted₂ : List (Nat × LayoutItem)} {O : List LayoutItem}
    (hstat : statics = L.filter (fun l => l.static))
    (hs1 : sorted₁ = insertionSort (entryLe t) (indexed 0 L))
    (hd1 : done₁ = placeAll t cols statics sorted₁)
    (hO : O = reassemble 0 L done₁)
    (hs2 : sorted₂ = insertionSort (entryLe t) (indexed 0 O))
    (hcl : ∀ l ∈ L, clampItem t cols l = l)
    (hwh : ∀ l ∈ L, 1 ≤ axisExt t l) :
    placeAll t cols (O.filter (fun l => l.static)) sorted₂ = sorted₂ := by
  -- sorting facts for pass one
  have hperm₁ : List.Perm sorted₁ (indexed 0 L) := by
    rw [hs1]; exact insertionSort_perm _ _
  have hidxpw₁ := indexed_pairwise_fst 0 L
  have hfstpw₁ : ((indexed 0 L).map Prod.fst).Pairwise (· < ·) :=
    List.pairwise_map.mpr hidxpw₁
  have hfstnd₁ : ((indexed 0 L).map Prod.fst).Nodup :=
    hfstpw₁.imp (fun h => Nat.ne_of_lt h)
  have hfstnd_s₁ : (sorted₁.map Prod.fst).Nodup :=
    ((hperm₁.map Prod.fst).nodup_iff).mpr hfstnd₁
  have hdfst : done₁.map Prod.fst = sorted₁.map Prod.fst := by
    rw [hd1]; exact placeAll_map_fst t cols statics sorted₁
  have hfstnd_d₁ : (done₁.map Prod.fst).Nodup := by
    rw [hdfst]; exact hfstnd_s₁
  have hnd₁ : sorted₁.Nodup :=
    hperm₁.nodup_iff.mpr (nodup_of_pairwise_fst_lt hidxpw₁)
  have hpw₁ : sorted₁.Pairwise (fun a b => entryLe t a b = true) := by
    rw [hs1]
    exact insertionSort_pairwise (entryLe_trans t) (entryLe_total t) _
  -- every processed entry is non-static
  have hDstatic : ∀ q ∈ done₁, q.2.static = false := by
    intro q hq
    obtain ⟨k, X⟩ := q
    rw [hd1] at hq
    obtain ⟨S₁, lo, S₂, hdec, hXeq⟩ := mem_placeAll hq
    obtain ⟨-, hlons, -, hXset, -, -, -⟩ := entry_facts hs1 hdec hXeq hcl
    show X.static = false
    rw [hXset, static_setAxisPos]
    exact hlons
  -- the output layout
  have hOlen : O.length = L.length := by
    rw [hO]; exact reassemble_length 0 L done₁
  have hfil : O.filter (fun l => l.static) = statics := by
    rw [hO, hstat]
    exact reassemble_filter_static hDstatic
  -- entries of the second pass are exactly the processed entries
  have hDO : ∀ k X, (k, X) ∈ done₁ → (k, X) ∈ indexed 0 O := by
    intro k X hmem
    rw [hd1] at hmem
    obtain ⟨S₁, lo, S₂, hdec, hXeq⟩ := mem_placeAll hmem
    obtain ⟨-, hlons, hloIdx, -, -, -, -⟩ := entry_facts hs1 hdec hXeq hcl
    obtain ⟨j, hj, hk, hget, -⟩ := mem_indexed hloIdx
    have hmem' : (0 + j, X) ∈ done₁ := by
      rw [hd1, ← hk]
      exact hmem
    have hns' : (L.get ⟨j, hj⟩).static = false := by rw [hget]; exact hlons
    have hjO : j < O.length := by rw [hOlen]; exact hj
    have hjR : j < (reassemble 0 L done₁).length := by
      rw [reassemble_length]; exact hj
    have hq1 : O.get? j = some (O.get ⟨j, hjO⟩) := List.get?_eq_get hjO
    have hq2 : O.get? j =
        some ((reassemble 0 L done₁).get ⟨j, hjR⟩) := by
      rw [hO]
      exact List.get?_eq_get hjR
    have hOget : O.get ⟨j, hjO⟩ = X := by
      have h3 := reassemble_get_nonstatic hfstnd_d₁ hmem' hj hns'
      have h4 : some (O.get ⟨j, hjO⟩) =
          some ((reassemble 0 L done₁).get ⟨j, hjR⟩) := by
        rw [← hq1, ← hq2]
      rw [Option.some_inj] at h4
      rw [h4, h3]
    have hXns : X.static = false := hDstatic (k, X) (by rw [hd1]; exact hmem)
    have := mem_indexed_of_get (n := 0) hjO (by rw [hOget]; exact hXns)
    rw [hOget, ← hk] at this
    exact this
  have hOD : ∀ k a, (k, a) ∈ indexed 0 O → (k, a) ∈ done₁ := by
    intro k a hmem
    obtain ⟨j, hjO, hk, hget, hans⟩ := mem_indexed hmem
    have hj : j < L.length := by rw [← hOlen]; exact hjO
    have hjR : j < (reassemble 0 L done₁).length := by
      rw [reassemble_length]; exact hj
    have hgeq : O.get ⟨j, hjO⟩ = (reassemble 0 L done₁).get ⟨j, hjR⟩ := by
      have hq1 : O.get? j = some (O.get ⟨j, hjO⟩) := List.get?_eq_get hjO
      have hq2 : O.get? j =
          some ((reassemble 0 L done₁).get ⟨j, hjR⟩) := by
        rw [hO]
        exact List.get?_eq_get hjR
      have h4 := hq1.symm.trans hq2
      rwa [Option.some_inj] at h4
    have hLns : (L.get ⟨j, hj⟩).static = false := by
      have hflag : ((reassemble 0 L done₁).get ⟨j, hjR⟩).static =
          (L.get ⟨j, hj⟩).static :=
        reassemble_static_flag hDstatic hj
      rw [← hgeq] at hflag
      rw [← hflag, hget]
      exact hans
    have hidxL : (0 + j, L.get ⟨j, hj⟩) ∈ indexed 0 L :=
      mem_indexed_of_get hj hLns
    have hkfst : k ∈ done₁.map Prod.fst := by
      rw [hdfst]
      refine (hperm₁.map Prod.fst).mem_iff.mpr ?_
      rw [hk]
      exact List.mem_map_of_mem Prod.fst hidxL
    obtain ⟨q, hq, hq1⟩ := List.mem_map.mp hkfst
    have hqD : (k, q.2) ∈ done₁ := by
      rw [← hq1]
      exact hq
    have hmemq : (0 + j, q.2) ∈ done₁ := by rw [← hk]; exact hqD
    have hOgetq : O.get ⟨j, hjO⟩ = q.2 := by
      rw [hgeq]
      exact reassemble_get_nonstatic hfstnd_d₁ hmemq hj hLns
    have : a = q.2 := by rw [← hget, hOgetq]
    rw [this]
    exact hqD
  -- sorting facts for pass two
  have hidxpw₂ := indexed_pairwise_fst 0 O
  have hperm₂ : List.Perm sorted₂ (indexed 0 O) := by
    rw [hs2]; exact insertionSort_perm _ _
  have hnd₂ : sorted₂.Nodup :=
    hperm₂.nodup_iff.mpr (nodup_of_pairwise_fst_lt hidxpw₂)
  have hpw₂ : sorted₂.Pairwise (fun a b => entryLe t a b = true) := by
    rw [hs2]
    exact insertionSort_pairwise (entryLe_trans t) (entryLe_total t) _
  -- the fixpoint
  refine placeAll_fix ?_
  intro S₁' e S₂' hdec₂
  obtain ⟨k, X⟩ := e
  have heS₂ : (k, X) ∈ sorted₂ := by
    rw [hdec₂]
    exact List.mem_append_right _ (List.mem_cons_self _ _)
  have heIdx₂ : (k, X) ∈ indexed 0 O := hperm₂.mem_iff.mp heS₂
  have heD : (k, X) ∈ done₁ := hOD k X heIdx₂
  rw [hd1] at heD
  obtain ⟨S₁, lo, S₂, hdec₁, hXeq⟩ := mem_placeAll heD
  obtain ⟨hloL, hlons, hloIdx, hXset, hXle, hXstop, hXfree⟩ :=
    entry_facts hs1 hdec₁ hXeq hcl
  show compactItem t cols
    (List.filter (fun l => l.static) O ++ S₁'.map Prod.snd) X = X
  rw [hfil]
  have hXw : X.w = lo.w := by
    conv_lhs => rw [hXset]
    rw [w_setAxisPos]
  have hclX : clampItem t cols X = X :=
    clampItem_eq_self_anti (hcl lo hloL) hXle hXw
  rw [compactItem, hclX]
  refine slide_of_stopped t _ X ?_
  rcases hXstop with h0 | hblk
  · exact Or.inl h0
  refine Or.inr ?_
  rw [blockedAt_iff] at hblk ⊢
  obtain ⟨p, hpmem, hpcol⟩ := hblk
  rcases List.mem_append.mp hpmem with hps | hpd
  · -- static blocker: statics are obstacles in every pass
    exact ⟨p, List.mem_append_left _ (by rw [hstat] at hps ⊢; exact hps), hpcol⟩
  -- non-static blocker: an earlier processed entry
  obtain ⟨q, hq, hqp⟩ := List.mem_map.mp hpd
  have hq' : (q.1, p) ∈ placeAll t cols statics S₁ := by
    rw [← hqp]
    exact hq
  obtain ⟨A, lp, B, hS₁dec, hpeq⟩ := mem_placeAll hq'
  have hdec₁' : sorted₁ = A ++ (q.1, lp) :: (B ++ (k, lo) :: S₂) := by
    rw [hdec₁, hS₁dec]
    simp [List.append_assoc]
  obtain ⟨hlpL, hlpns, hlpIdx, hpset, hple, -, -⟩ :=
    entry_facts hs1 hdec₁' hpeq hcl
  have hpD₁ : (q.1, p) ∈ done₁ := by
    rw [hd1, hdec₁, placeAll_append]
    exact List.mem_append_left _ hq'
  have hep : 1 ≤ axisExt t p := by
    rw [hpset, axisExt_setAxisPos]
    exact hwh lp hlpL
  have hsndp : sndPos t p = sndPos t lp := by
    rw [hpset, sndPos_setAxisPos]
  have hsndX : sndPos t X = sndPos t lo := by
    rw [hXset, sndPos_setAxisPos]
  -- locate the blocker's entry before the current one in the second pass
  have hpS₁' : (q.1, p) ∈ S₁' := by
    by_cases hax : axisPos t p < axisPos t X
    · -- the blocker has a strictly smaller key
      have hlt : keyLt (itemKey t p) (itemKey t X) := keyLt_of_axis_lt t hax
      have hpSorted₂ : (q.1, p) ∈ sorted₂ :=
        hperm₂.mem_iff.mpr (hDO _ _ hpD₁)
      exact mem_pre_of_keyLt hpw₂ hdec₂ hpSorted₂ hlt
    by_cases hmv : axisPos t X < axisPos t lo
    · -- the item moved: its final cell is collision-free, contradiction
      exfalso
      have hfree := hXfree hmv
      have : collides p X = false := by
        by_contra hcon
        simp only [Bool.not_eq_false] at hcon
        rw [Bool.eq_false_iff] at hfree
        exact hfree (blockedAt_iff.mpr ⟨p, hpmem, hcon⟩)
      exact hax (blocker_below hep hpcol this)
    -- the item did not move: compare original keys
    have haxeq : axisPos t X = axisPos t lo := by omega
    have hrel : entryLe t (q.1, lp) (k, lo) = true :=
      rel_of_pairwise_decomp (R := fun a b => entryLe t a b = true)
        hpw₁ hdec₁'
    simp only [entryLe, keyLe, itemKey_eq, Bool.or_eq_true,
      Bool.and_eq_true, decide_eq_true_eq] at hrel
    have haxp : axisPos t p = axisPos t X ∧
        axisPos t lp = axisPos t lo ∧ sndPos t lp ≤ sndPos t lo := by
      rcases hrel with h | ⟨h1, h2⟩
      · omega
      · exact ⟨by omega, h1, h2⟩
    by_cases hsnd : sndPos t p < sndPos t X
    · -- strictly smaller key on the secondary axis
      have hlt : keyLt (itemKey t p) (itemKey t X) := by
        rw [itemKey_eq, itemKey_eq]
        exact Or.inr ⟨haxp.1, hsnd⟩
      have hpSorted₂ : (q.1, p) ∈ sorted₂ :=
        hperm₂.mem_iff.mpr (hDO _ _ hpD₁)
      exact mem_pre_of_keyLt hpw₂ hdec₂ hpSorted₂ hlt
    -- full tie: the keys agree, so stability decides the order
    have hsndeq : sndPos t p = sndPos t X := by omega
    have hkeyeq : itemKey t p = itemKey t X := by
      rw [itemKey_eq, itemKey_eq, haxp.1, hsndeq]
    have hkeyeq0 : itemKey t lp = itemKey t lo := by
      rw [itemKey_eq, itemKey_eq, haxp.2.1]
      have : sndPos t lp = sndPos t lo := by omega
      rw [this]
    -- the indices differ
    have hsubl₁ : List.Sublist [(q.1, lp), (k, lo)] sorted₁ :=
      pair_sublist_of_decomp hdec₁'
    have hkne : q.1 ≠ k := by
      have hsubfst : List.Sublist [q.1, k] (sorted₁.map Prod.fst) := by
        have := hsubl₁.map Prod.fst
        simpa using this
      have := hsubfst.nodup hfstnd_s₁
      simp at this
      exact this
    have hklt : q.1 < k := by
      rcases Nat.lt_or_ge q.1 k with h | h
      · exact h
      exfalso
      have hkq : k < q.1 := by omega
      have hsub0 : List.Sublist [(k, lo), (q.1, lp)] (indexed 0 L) :=
        pair_sublist_of_pairwise_lt hidxpw₁ hloIdx hlpIdx hkq
      have hle0 : entryLe t (k, lo) (q.1, lp) = true := by
        show keyLe (itemKey t lo) (itemKey t lp) = true
        rw [hkeyeq0]
        exact keyLe_refl _
      have hsub0' : List.Sublist [(k, lo), (q.1, lp)] sorted₁ := by
        rw [hs1]
        exact pair_sublist_insertionSort hle0 hsub0
      exact pair_sublist_antisym hnd₁ hsub0' hsubl₁
    -- stability in the second pass
    have hpIdx₂ : (q.1, p) ∈ indexed 0 O := hDO _ _ hpD₁
    have hsub2 : List.Sublist [(q.1, p), (k, X)] (indexed 0 O) :=
      pair_sublist_of_pairwise_lt hidxpw₂ hpIdx₂ heIdx₂ hklt
    have hle2 : entryLe t (q.1, p) (k, X) = true := by
      show keyLe (itemKey t p) (itemKey t X) = true
      rw [hkeyeq]
      exact keyLe_refl _
    have hsub2' : List.Sublist [(q.1, p), (k, X)] sorted₂ := by
      rw [hs2]
      exact pair_sublist_insertionSort hle2 hsub2
    exact mem_pre_of_pair_sublist hnd₂ hdec₂ hsub2'
  exact ⟨p, List.mem_append_right _ (List.mem_map_of_mem Prod.snd hpS₁'),
    hpcol⟩

/-- Idempotence of `compact` for a compaction direction without an active
clamp, on layouts whose items have positive extent along the axis. -/
theorem compact_idem_core {t : CompactType} (ht : t ≠ CompactType.none)
    (cols : Nat) (L : List LayoutItem)
    (hcl : ∀ l ∈ L, clampItem t cols l = l)
    (hwh : ∀ l ∈ L, 1 ≤ axisExt t l) :
    compact (compact L t cols) t cols = compact L t cols := by
  rw [compact_eq_of_ne_none ht L cols]
  rw [compact_eq_of_ne_none ht _ cols]
  rw [pass2_fixed rfl rfl rfl rfl rfl hcl hwh]
  refine reassemble_fix ?_
  intro q hq j hj hqj
  have hqIdx : q ∈ indexed 0 (reassemble 0 L
      (placeAll t cols (L.filter (fun l => l.static))
        (insertionSort (entryLe t) (indexed 0 L)))) :=
    (insertionSort_perm _ _).mem_iff.mp hq
  have hqIdx' : (q.1, q.2) ∈ indexed 0 (reassemble 0 L
      (placeAll t cols (L.filter (fun l => l.static))
        (insertionSort (entryLe t) (indexed 0 L)))) := hqIdx
  obtain ⟨j', hj', hkj, hget, -⟩ := mem_indexed hqIdx'
  have hjj : j = j' := by omega
  subst hjj
  exact hget.symm

/-! ## Claim C8: idempotence of compact -/

/-- A concrete horizontal layout on which compaction is not idempotent:
the out-of-range item `q` is clamped from column 10 to column 5, skipping
the slide checks at the intermediate columns, and ends up blocked only by
`b`; in the second pass `q` sorts before `b` and slides to column 0. -/
def cexLayout : List LayoutItem :=
  [{ i := "s", x := 4, y := 2, w := 1, h := 1, static := true },
   { i := "b", x := 5, y := 1, w := 1, h := 2 },
   { i := "p", x := 6, y := 1, w := 1, h := 1 },
   { i := "q", x := 10, y := 0, w := 3, h := 2 }]

/-- C8, counterexample: `compact` is not idempotent as claimed — for the
horizontal compact type there is a layout (with `cols = 8 ≥ 1`) on which
a second compaction pass moves an item again. -/
theorem compact_not_idempotent :
    ¬ (compact (compact cexLayout CompactType.horizontal 8)
        CompactType.horizontal 8 =
      compact cexLayout CompactType.horizontal 8) := by decide

/-- C8, amended: for layouts of well-formed items (`w, h ≥ 1`, as the
data model requires), `compact` is idempotent for the `vertical` and
`none` compact types; for `horizontal` it is idempotent provided no item
overflows the columns (`x + w ≤ cols`, so the re-clamp is inactive) —
without that proviso horizontal compaction is not idempotent. -/
theorem compact_idempotent_amended :
    (∀ (L : List LayoutItem) (cols : Nat),
      (∀ l ∈ L, 1 ≤ l.w ∧ 1 ≤ l.h) →
      compact (compact L CompactType.vertical cols) CompactType.vertical cols
        = compact L CompactType.vertical cols) ∧
    (∀ (L : List LayoutItem) (cols : Nat),
      compact (compact L CompactType.none cols) CompactType.none cols
        = compact L CompactType.none cols) ∧
    (∀ (L : List LayoutItem) (cols : Nat),
      (∀ l ∈ L, 1 ≤ l.w ∧ 1 ≤ l.h) → (∀ l ∈ L, l.x + l.w ≤ cols) →
      compact (compact L CompactType.horizontal cols)
        CompactType.horizontal cols = compact L CompactType.horizontal cols)
    := by
  refine ⟨?_, ?_, ?_⟩
  · intro L cols hwh
    refine compact_idem_core (by decide) cols L ?_ ?_
    · intro l hl
      rfl
    · intro l hl
      exact (hwh l hl).2
  · intro L cols
    rfl
  · intro L cols hwh hbound
    refine compact_idem_core (by decide) cols L ?_ ?_
    · intro l hl
      exact clampItem_eq_self_of_le _ (hbound l hl)
    · intro l hl
      exact (hwh l hl).1

/-- A small well-formed vertical layout used as a witness input. -/
def vwit : List LayoutItem :=
  [{ i := "a", x := 0, y := 3, w := 1, h := 1 },
   { i := "b", x := 0, y := 1, w := 2, h := 2 }]

theorem compact_idempotent_amended_witness :
    ((∀ l ∈ vwit, 1 ≤ l.w ∧ 1 ≤ l.h) ∧
      compact (compact vwit CompactType.vertical 4) CompactType.vertical 4 =
        compact vwit CompactType.vertical 4) ∧
    ((∀ l ∈ vwit, l.x + l.w ≤ 4) ∧
      compact (compact vwit CompactType.horizontal 4)
          CompactType.horizontal 4 =
        compact vwit CompactType.horizontal 4) :=
  ⟨⟨by decide, compact_idempotent_amended.1 vwit 4 (by decide)⟩,
   ⟨by decide, compact_idempotent_amended.2.2 vwit 4 (by decide) (by decide)⟩⟩

/-! ## Remaining layout utilities (modelled from the spec) -/

/-- Modelled from the spec: the deep structural comparison of layout
lists used to decide whether a layout "changed". -/
def isEqual (a b : List LayoutItem) : Bool := a == b

/-- Modelled from the spec: deep clone of a layout list — the identity on
immutable values. -/
def cloneLayouts (l : List LayoutItem) : List LayoutItem := l

/-- Modelled from the spec: find a layout item by its id. -/
def getLayoutItem (layouts : List LayoutItem) (i : String) :
    Option LayoutItem :=
  layouts.find? (fun l => l.i == i)

/-- Modelled from the spec: apply `f` to the item with id `i` and return
the updated layout together with the updated item; an absent id is a
no-op that returns no item. -/
def withLayoutItem (layouts : List LayoutItem) (i : String)
    (f : LayoutItem → LayoutItem) :
    List LayoutItem × Option LayoutItem :=
  match getLayoutItem layouts i with
  | some l =>
    (layouts.map (fun x => if x.i == i then f l else x), some (f l))
  | Option.none => (layouts, Option.none)

/-- Modelled from the spec: the normalization entry point `reLayout` —
clamp each item's geometry into valid ranges (coordinates are already
non-negative in this embedding; the width is clamped to the column
count), then run the Compactor once. -/
def reLayout (layouts : List LayoutItem) (t : CompactType) (cols : Nat) :
    List LayoutItem :=
  compact (layouts.map (fun l => { l with w := min l.w cols })) t cols

/-- Displacement of a collision victim: one row below the moved item, or
one column to the right of it under horizontal compaction. -/
def displaceBelow (t : CompactType) (item other : LayoutItem) :
    LayoutItem :=
  match t with
  | .horizontal => { other with x := item.x + item.w }
  | _ => { other with y := item.y + item.h }

/-- Modelled from the spec: the displacement cascade of `moveElement` as
an explicit worklist — displace every non-static item colliding with the
head item, enqueue the victims, and cap the iterations at the item
count. -/
def resolveQueue (t : CompactType) :
    Nat → List LayoutItem → List String → List LayoutItem
  | 0, layouts, _ => layouts
  | _ + 1, layouts, [] => layouts
  | fuel + 1, layouts, i :: queue =>
    match getLayoutItem layouts i with
    | some mover =>
      resolveQueue t fuel
        (layouts.map (fun c =>
          if c.static = false && c.i != mover.i && collides c mover then
            displaceBelow t mover c
          else c))
        (queue ++ ((getAllCollisions layouts mover).filter
          (fun c => c.static = false)).map (fun c => c.i))
    | Option.none => resolveQueue t fuel layouts queue

set_option linter.unusedVariables false in
/-- Modelled from the spec: `moveElement(layout, item, x, y, isUserAction,
preventCollision, compactType, cols)` — reject the move when
`preventCollision` is set and the target cell collides, otherwise place
the item at the clamped target cell and cascade displacement.
(`isUserAction` is transparent to the geometry, as the spec states.) -/
def moveElement (layouts : List LayoutItem) (item : LayoutItem)
    (targetX targetY : Nat) (isUserAction : Bool)
    (preventCollision : Bool) (t : CompactType) (cols : Nat) :
    List LayoutItem :=
  let moved := { item with x := min targetX (cols - item.w), y := targetY }
  if preventCollision &&
      !(getAllCollisions (layouts.filter (fun l => l.i != item.i))
        moved).isEmpty then
    layouts
  else
    resolveQueue t layouts.length
      (layouts.map (fun l => if l.i == item.i then moved else l)) [item.i]

/-! ## The Layout component (embedded from src/components/Layout.tsx) -/

/-- The engine-relevant props of the component (`LayoutProps`). -/
structure LayoutProps where
  layouts : List LayoutItem := []
  compactType : CompactType := .vertical
  cols : Nat := 12
  preventCollision : Bool := false
  group : String := ""
  deriving Repr, DecidableEq

/-- The engine-relevant component state (`LayoutStates`); the
DOM-measurement fields `offset` and `containerWidth` are outside the
engine.  `prevPosition` stores the last grid cell computed from the
pointer. -/
structure LayoutStates where
  layouts : List LayoutItem
  oldLayouts : Option (List LayoutItem) := Option.none
  placeholder : Option LayoutItem := Option.none
  draggingItem : Option LayoutItem := Option.none
  prevPosition : Option (Nat × Nat) := Option.none
  deriving Repr, DecidableEq

/-- One registered layout instance, as seen by cross-group operations:
the props and state fields that `removeOtherGroupItem` reads and
writes. -/
structure LayoutInst where
  compactType : CompactType
  cols : Nat
  layouts : List LayoutItem
  draggingItem : Option LayoutItem := Option.none
  prevPosition : Option (Nat × Nat) := Option.none
  deriving Repr, DecidableEq

/-- The module-level `groupLayouts` registry: group name to instance. -/
abbrev Registry : Type := List (String × LayoutInst)

/-- Object-property read on the registry. -/
def lookupGroup (r : Registry) (g : String) : Option LayoutInst :=
  match r.find? (fun e => e.1 == g) with
  | some e => some e.2
  | Option.none => Option.none

/-- Object-property write on the registry (the key is present). -/
def updateGroup (r : Registry) (g : String) (inst : LayoutInst) :
    Registry :=
  r.map (fun e => if e.1 == g then (e.1, inst) else e)

/-- `isGroupItem(itemType)` (lines 202-204): the drag source is this
group or any registered group. -/
def isGroupItem (r : Registry) (self : String) (itemType : String) :
    Bool :=
  itemType == self || (lookupGroup r itemType).isSome

/-- Clearing the `placeholder` flag of the item with id `i`
(`delete layoutItem.placeholder` on the item found by `getLayoutItem`). -/
def clearPlaceholder (i : String) (layouts : List LayoutItem) :
    List LayoutItem :=
  layouts.map (fun l => if l.i == i then { l with placeholder := false }
    else l)

/-- Setting the `placeholder` flag of the item with id `i`
(`layoutItem.placeholder = true` on an item aliased into the layouts). -/
def setPlaceholder (i : String) (layouts : List LayoutItem) :
    List LayoutItem :=
  layouts.map (fun l => if l.i == i then { l with placeholder := true }
    else l)

/-- `onLayoutMaybeChanged(newLayouts, oldLayouts)` (lines 171-183):
compares the new layouts against the old ones, falling back to the
current state layouts when no explicit old layout is given.  The first
component is the returned equality; the host's `onLayoutChange` callback
fires exactly when they are not equal (second component). -/
def onLayoutMaybeChanged (stateLayouts newLayouts : List LayoutItem)
    (oldLayouts : Option (List LayoutItem)) : Bool × Bool :=
  (isEqual (oldLayouts.getD stateLayouts) newLayouts,
   !(isEqual (oldLayouts.getD stateLayouts) newLayouts))

/-- `resetDraggingState(i)` (lines 427-442): delete the placeholder flag
of item `i` in the working layouts, clear the module-level hover marks
(second component), and reset `draggingItem`, `prevPosition` and
`oldLayouts`. -/
def resetDraggingState (s : LayoutStates) (i : String) :
    LayoutStates × List String :=
  ({ s with layouts := clearPlaceholder i s.layouts,
            draggingItem := Option.none,
            prevPosition := Option.none,
            oldLayouts := Option.none }, [])

set_option linter.unusedVariables false in
/-- `onDrop(dragItem, itemType)` (lines 374-403); `sameGroup` stands for
`itemType === this.group`.  `Option.none` models the TypeError thrown
when no dragging item is recorded or its id is absent from the working
layouts (`layouts[-1]` is `undefined`, so `delete layoutItem.placeholder`
throws).  The third component records whether this instance's
`onLayoutChange` fired; the cross-group branch additionally notifies the
source instance, which does not touch this instance's state. -/
def onDrop (s : LayoutStates) (hg : List String) (sameGroup : Bool) :
    Option (LayoutStates × List String × Bool) :=
  match s.draggingItem with
  | Option.none => Option.none
  | some d =>
    match s.layouts.findIdx? (fun l => l.i == d.i) with
    | Option.none => Option.none
    | some idx =>
      let layouts1 := clearPlaceholder d.i s.layouts
      if sameGroup then
        let fired := (onLayoutMaybeChanged layouts1 layouts1 s.oldLayouts).2
        let s1 := resetDraggingState { s with layouts := layouts1 } d.i
        some (s1.1, s1.2, fired)
      else
        let s1 := resetDraggingState
          { s with layouts := layouts1.eraseIdx idx } d.i
        some (s1.1, s1.2, false)

/-- `onDragEnd(item, didDrop, itemType)` (lines 413-425): nothing when
the drop was already handled; for a group item on a cancelled drag,
restore the pre-drag snapshot and reset the dragging state.  (The TS
state type guarantees the snapshot is present whenever it is restored;
the `getD` fallback is outside the modelled executions.) -/
def onDragEnd (r : Registry) (self : String) (s : LayoutStates)
    (hg : List String) (item : LayoutItem) (didDrop : Bool)
    (itemType : String) : LayoutStates × List String :=
  if didDrop then (s, hg)
  else if isGroupItem r self itemType then
    resetDraggingState { s with layouts := s.oldLayouts.getD s.layouts }
      item.i
  else (s, hg)

/-- `onCardItemDragEnd(item, didDrop, itemType)` (lines 444-469): no-op
without a recorded dragging item; a cancelled drag whose item is present
restores a clone of the snapshot (leaving `oldLayouts` and the hover
marks untouched); a completed drop is forwarded to `onDrop`. -/
def onCardItemDragEnd (s : LayoutStates) (hg : List String)
    (didDrop : Bool) (sameGroup : Bool) :
    Option (LayoutStates × List String × Bool) :=
  match s.draggingItem with
  | Option.none => some (s, hg, false)
  | some d =>
    if !didDrop then
      match s.layouts.findIdx? (fun l => l.i == d.i) with
      | some _ =>
        some ({ s with draggingItem := Option.none,
                       prevPosition := Option.none,
                       layouts := cloneLayouts (s.oldLayouts.getD s.layouts) },
              hg, false)
      | Option.none => some (s, hg, false)
    else
      onDrop s hg sameGroup

/-- `getDerivedStateFromProps(props, prevState)` (lines 122-137):
`Option.none` when the incoming props are ignored (an interaction is in
progress, or the prop layouts equal the state layouts), otherwise the
replacement state layouts. -/
def getDerivedStateFromProps (props : LayoutProps) (prev : LayoutStates)
    (hg : List String) : Option (List LayoutItem) :=
  if hg.length ≠ 0 ∨ prev.placeholder.isSome then Option.none
  else if !(isEqual props.layouts prev.layouts) then
    some (reLayout props.layouts props.compactType props.cols)
  else Option.none

/-- `moveItem(layoutItem, offset)` (lines 274-306), with the grid cell
already computed from the pointer offset (`this.calcXY` reads the live
DOM rectangle and scroll position; its result is this function's
`position` argument).  The dragged item's placeholder flag is set before
the early-return check on the previous position. -/
def moveItem (props : LayoutProps) (s : LayoutStates)
    (layoutItem : LayoutItem) (position : Nat × Nat) : LayoutStates :=
  let layouts1 := setPlaceholder layoutItem.i s.layouts
  let item1 := { layoutItem with placeholder := true }
  if s.prevPosition == some position then
    { s with layouts := layouts1 }
  else
    { s with
      draggingItem := some item1,
      prevPosition := some position,
      layouts := compact
        (moveElement layouts1 item1 position.1 position.2 true
          props.preventCollision props.compactType props.cols)
        props.compactType props.cols }

/-- The running minimum over selected collisions in `onResize`
(`Infinity` is `Option.none`). -/
def foldMin (g : LayoutItem → Bool) (f : LayoutItem → Nat) :
    List LayoutItem → Option Nat → Option Nat
  | [], acc => acc
  | c :: rest, acc =>
    foldMin g f rest
      (if g c then
        (match acc with
         | Option.none => some (f c)
         | some u => some (min u (f c)))
       else acc)

/-- The resize adjustment applied to the item inside `withLayoutItem`
(lines 474-506): with `preventCollision` set and a colliding requested
size, the position is kept and each axis is clipped at the nearest
colliding neighbour's leading edge (unchanged when no neighbour lies
ahead on that axis); otherwise the requested size is taken. -/
def resizeAdjust (preventCollision : Bool) (layouts : List LayoutItem)
    (w h : Nat) (l : LayoutItem) : LayoutItem :=
  let collisions :=
    (getAllCollisions layouts { l with w := w, h := h }).filter
      (fun c => c.i != l.i)
  if preventCollision && !collisions.isEmpty then
    let leastX := foldMin (fun c => l.x < c.x) (fun c => c.x) collisions
      Option.none
    let leastY := foldMin (fun c => l.y < c.y) (fun c => c.y) collisions
      Option.none
    let l1 := match leastX with
      | some v => { l with w := v - l.x }
      | Option.none => l
    match leastY with
    | some v => { l1 with h := v - l.y }
    | Option.none => l1
  else
    { l with w := w, h := h }

/-- `onResize(item, w, h)` (lines 471-524): adjust the item through
`withLayoutItem` (no-op when the id is absent), recompact, and set the
resize placeholder. -/
def onResize (props : LayoutProps) (s : LayoutStates)
    (item : LayoutItem) (w h : Nat) : LayoutStates :=
  let pair := withLayoutItem s.layouts item.i
    (resizeAdjust props.preventCollision s.layouts w h)
  match pair.2 with
  | Option.none => s
  | some l =>
    { s with
      layouts := compact pair.1 props.compactType props.cols,
      placeholder := some { i := item.i, x := l.x, y := l.y,
                            w := l.w, h := l.h, static := true } }

/-- `onResizeStop()` (lines 526-537): recompact the working layouts,
clear the resize placeholder and the snapshot, and report a change
against the snapshot.  The second component records whether
`onLayoutChange` fired; the compacted layouts are only handed to the
callbacks, not written back into the state. -/
def onResizeStop (props : LayoutProps) (s : LayoutStates) :
    LayoutStates × Bool × List LayoutItem :=
  let newLayouts := compact s.layouts props.compactType props.cols
  ({ s with placeholder := Option.none, oldLayouts := Option.none },
   (onLayoutMaybeChanged s.layouts newLayouts s.oldLayouts).2,
   newLayouts)

/-- `removeOtherGroupItem(layoutItem, group)` (lines 206-224): defensive
no-op when the group is not registered or the id is absent; otherwise
splice the item out, recompact that instance's layouts, and clear its
dragging state. -/
def removeOtherGroupItem (r : Registry) (item : LayoutItem) (g : String) :
    Registry :=
  match lookupGroup r g with
  | Option.none => r
  | some inst =>
    match inst.layouts.findIdx? (fun l => l.i == item.i) with
    | Option.none => r
    | some idx =>
      updateGroup r g
        { inst with
          layouts := compact (inst.layouts.eraseIdx idx) inst.compactType
            inst.cols,
          draggingItem := Option.none,
          prevPosition := Option.none }

/-- `removeHoverdGroupItem(layoutItem)` (lines 226-235) for the instance
whose group is `self`: when more than one group is hovered, remove the
item from every other hovered group and keep only the current group
hovered. -/
def removeHoverdGroupItem (r : Registry) (hg : List String)
    (self : String) (item : LayoutItem) : Registry × List String :=
  if hg.length > 1 then
    (hg.foldl
      (fun acc g => if g ≠ self then removeOtherGroupItem acc item g
        else acc) r,
     [self])
  else (r, hg)

/-- Modelled from the spec: the `DEFAULT_GROUP` prefix for anonymous
group names (the constant lives in `src/constants`, outside the
available sources; only its identity as a fixed string matters). -/
def DEFAULT_GROUP : String := "default_group"

/-- The group name of an anonymous instance at counter value `idx`. -/
def anonymousGroupName (idx : Nat) : String :=
  DEFAULT_GROUP ++ "_" ++ Nat.repr idx

/-- The module-level mutable registry state: `groupLayouts`,
`hoveredGroups` and the anonymous-group counter `groupIndex`. -/
structure GlobalState where
  groupLayouts : Registry
  hoveredGroups : List String
  groupIndex : Nat

/-- `constructor(props)` (lines 80-120): pick the group name (anonymous
instances use the module-level counter), increment the counter on every
construction, register the instance under its name, and seed the state
with `reLayout(props.layouts, compactType, cols)`. -/
def constructLayout (g : GlobalState) (props : LayoutProps) :
    GlobalState × String × LayoutStates :=
  let name := if props.group == "" then anonymousGroupName g.groupIndex
    else props.group
  let st : LayoutStates :=
    { layouts := reLayout props.layouts props.compactType props.cols }
  let inst : LayoutInst :=
    { compactType := props.compactType, cols := props.cols,
      layouts := st.layouts }
  ({ g with
      groupIndex := g.groupIndex + 1,
      groupLayouts := (name, inst) ::
        g.groupLayouts.filter (fun e => e.1 != name) },
   name, st)

/-! ## Claim theorems about the Layout component -/

theorem clearPlaceholder_of_clean {L : List LayoutItem} {i : String}
    (h : ∀ l ∈ L, l.placeholder = false) : clearPlaceholder i L = L := by
  induction L with
  | nil => rfl
  | cons l rest ih =>
    rw [clearPlaceholder, List.map_cons]
    have h1 : l.placeholder = false := h l (List.mem_cons_self _ _)
    have h2 : { l with placeholder := false } = l := by
      cases l
      simp only at h1
      rw [h1]
    refine congrArg₂ _ ?_ (ih (fun x hx => h x (List.mem_cons_of_mem _ hx)))
    by_cases hi : (l.i == i) = true
    · rw [if_pos hi, h2]
    · rw [if_neg hi]

/-- C1: a drag or resize interaction that ends without a drop restores
the pre-interaction snapshot exactly.  Cancelling a group-item drag
(`onDragEnd` with `didDrop = false`) commits the snapshot `L0` (whose
committed items carry no placeholder flag), and cancelling a card-item
drag whose dragging copy is present (`onCardItemDragEnd` with
`didDrop = false`) commits a clone of `L0` — same item identities,
geometry and ordering, with no intermediate displacement left applied. -/
theorem cancel_restores_snapshot
    (r : Registry) (self itemType : String) (s : LayoutStates)
    (hg : List String) (item d : LayoutItem) (L0 : List LayoutItem)
    (hold : s.oldLayouts = some L0)
    (hclean : ∀ l ∈ L0, l.placeholder = false)
    (hgroup : isGroupItem r self itemType = true)
    (hdrag : s.draggingItem = some d)
    (hpresent : (s.layouts.findIdx? (fun l => l.i == d.i)).isSome) :
    (onDragEnd r self s hg item false itemType).1.layouts = L0 ∧
    ∃ s1, onCardItemDragEnd s hg false false = some (s1, hg, false) ∧
      s1.layouts = L0 := by
  constructor
  · rw [onDragEnd]
    rw [if_neg (by simp), if_pos hgroup, resetDraggingState]
    show clearPlaceholder item.i (s.oldLayouts.getD s.layouts) = L0
    rw [hold, Option.getD_some]
    exact clearPlaceholder_of_clean hclean
  · obtain ⟨idx, hidx⟩ := Option.isSome_iff_exists.mp hpresent
    refine ⟨{ s with draggingItem := Option.none,
                     prevPosition := Option.none,
                     layouts := cloneLayouts (s.oldLayouts.getD s.layouts) },
      ?_, ?_⟩
    · simp only [onCardItemDragEnd, hdrag, hidx, Bool.not_false, if_true]
    · show cloneLayouts (s.oldLayouts.getD s.layouts) = L0
      rw [hold, Option.getD_some]
      rfl

/-- A concrete state used to instantiate the cancellation theorems. -/
def sWit : LayoutStates :=
  { layouts := [{ i := "a", x := 0, y := 0, w := 1, h := 1,
                  placeholder := true }],
    oldLayouts := some [{ i := "a", x := 1, y := 2, w := 1, h := 1 }],
    draggingItem := some { i := "a", x := 0, y := 0, w := 1, h := 1 } }

theorem cancel_restores_snapshot_witness :
    (isGroupItem [] "g" "g" = true ∧
      (sWit.layouts.findIdx? (fun l => l.i == "a")).isSome) ∧
    ((onDragEnd [] "g" sWit ["g"]
        { i := "a", x := 0, y := 0, w := 1, h := 1 } false "g").1.layouts =
      [{ i := "a", x := 1, y := 2, w := 1, h := 1 }] ∧
      ∃ s1, onCardItemDragEnd sWit ["g"] false false =
          some (s1, ["g"], false) ∧
        s1.layouts = [{ i := "a", x := 1, y := 2, w := 1, h := 1 }]) :=
  ⟨⟨by decide, by decide⟩,
    cancel_restores_snapshot [] "g" "g" sWit ["g"]
      { i := "a", x := 0, y := 0, w := 1, h := 1 }
      { i := "a", x := 0, y := 0, w := 1, h := 1 }
      [{ i := "a", x := 1, y := 2, w := 1, h := 1 }]
      rfl (by decide) (by decide) rfl (by decide)⟩

/-- C2: contrary to the claim, the module-level `hoveredGroups` list is
NOT reset on every way a drag can end: `onCardItemDragEnd` with
`didDrop = false` (a card-item drag cancelled away from any layout)
restores the snapshot but leaves the hover marks untouched, so a stale
hover mark survives into the next interaction. -/
theorem hoveredGroups_not_cleared_on_card_cancel :
    (onCardItemDragEnd sWit ["g"] false false).map
        (fun x => x.2.1) = some ["g"] ∧
    (["g"] : List String) ≠ [] ∧
    (resetDraggingState sWit "a").2 = [] := by
  refine ⟨by decide, by decide, by decide⟩

/-- C3: `onLayoutMaybeChanged(newLayouts, oldLayouts)` invokes the
host's `onLayoutChange` callback iff `isEqual(oldLayouts, newLayouts)`
is false (with the current state layouts as fallback when no old layout
is given); on a same-group drop the comparison is made against the
drag-start snapshot and the committed (placeholder-cleared) layouts, and
on resize stop against the snapshot and the recompacted layouts. -/
theorem layout_change_reported_iff (props : LayoutProps)
    (s : LayoutStates) (hg : List String)
    (sl newL : List LayoutItem) (old : Option (List LayoutItem))
    (L0 : List LayoutItem) (d : LayoutItem) (idx : Nat)
    (hold : s.oldLayouts = some L0)
    (hdrag : s.draggingItem = some d)
    (hidx : s.layouts.findIdx? (fun l => l.i == d.i) = some idx) :
    ((onLayoutMaybeChanged sl newL old).2 = true ↔
      isEqual (old.getD sl) newL = false) ∧
    (∃ s1 hg1, onDrop s hg true =
      some (s1, hg1,
        !(isEqual L0 (clearPlaceholder d.i s.layouts)))) ∧
    ((onResizeStop props s).2.1 = true ↔
      isEqual L0 (compact s.layouts props.compactType props.cols)
        = false) := by
  refine ⟨?_, ?_, ?_⟩
  · rw [onLayoutMaybeChanged]
    simp [Bool.not_eq_true']
  · refine ⟨(resetDraggingState
        { s with layouts := clearPlaceholder d.i s.layouts } d.i).1,
      (resetDraggingState
        { s with layouts := clearPlaceholder d.i s.layouts } d.i).2, ?_⟩
    simp only [onDrop, hdrag, hidx]
    rw [if_pos trivial, onLayoutMaybeChanged, hold]
    rfl
  · rw [onResizeStop, onLayoutMaybeChanged, hold]
    simp [Bool.not_eq_true']

theorem layout_change_reported_iff_witness :
    ((onLayoutMaybeChanged [] [] Option.none).2 = true ↔
      isEqual ((Option.none : Option (List LayoutItem)).getD []) []
        = false) ∧
    (∃ s1 hg1, onDrop sWit [] true =
      some (s1, hg1,
        !(isEqual [{ i := "a", x := 1, y := 2, w := 1, h := 1 }]
          (clearPlaceholder "a" sWit.layouts)))) ∧
    ((onResizeStop {} sWit).2.1 = true ↔
      isEqual [{ i := "a", x := 1, y := 2, w := 1, h := 1 }]
        (compact sWit.layouts CompactType.vertical 12) = false) :=
  layout_change_reported_iff {} sWit [] [] [] Option.none
    [{ i := "a", x := 1, y := 2, w := 1, h := 1 }]
    { i := "a", x := 0, y := 0, w := 1, h := 1 } 0 rfl rfl (by decide)

/-- C6: every layout list supplied by the host enters the engine through
`reLayout`: the constructor seeds the state with
`reLayout(props.layouts, compactType, cols)`, and
`getDerivedStateFromProps` ignores the incoming props while an
interaction is in progress (hovered groups or a resize placeholder),
replaces the state with `reLayout(props.layouts, compactType, cols)`
when the prop layouts differ from the state layouts, and leaves the
state alone when they are equal. -/
theorem layouts_enter_via_reLayout (g : GlobalState)
    (props : LayoutProps) (prev : LayoutStates) (hg : List String) :
    ((constructLayout g props).2.2.layouts =
      reLayout props.layouts props.compactType props.cols) ∧
    (hg ≠ [] ∨ prev.placeholder.isSome →
      getDerivedStateFromProps props prev hg = Option.none) ∧
    (hg = [] → prev.placeholder = Option.none →
      isEqual props.layouts prev.layouts = false →
      getDerivedStateFromProps props prev hg =
        some (reLayout props.layouts props.compactType props.cols)) ∧
    (hg = [] → prev.placeholder = Option.none →
      isEqual props.layouts prev.layouts = true →
      getDerivedStateFromProps props prev hg = Option.none) := by
  refine ⟨rfl, ?_, ?_, ?_⟩
  · intro h
    rw [getDerivedStateFromProps, if_pos]
    rcases h with h | h
    · exact Or.inl (by simpa [List.length_eq_zero] using h)
    · exact Or.inr h
  · intro h1 h2 h3
    rw [getDerivedStateFromProps,
      if_neg (by simp [h1, h2]), if_pos (by simp [h3])]
  · intro h1 h2 h3
    rw [getDerivedStateFromProps,
      if_neg (by simp [h1, h2]), if_neg (by simp [h3])]

theorem layouts_enter_via_reLayout_witness :
    (((constructLayout ⟨[], [], 0⟩ {}).2.2.layouts =
        reLayout [] CompactType.vertical 12) ∧
      ((["g"] : List String) ≠ [] ∨
          (sWit.placeholder).isSome →
        getDerivedStateFromProps {} sWit ["g"] = Option.none) ∧
      (((["g"] : List String) = [] → sWit.placeholder = Option.none →
        isEqual ([] : List LayoutItem) sWit.layouts = false →
        getDerivedStateFromProps {} sWit ["g"] =
          some (reLayout [] CompactType.vertical 12)) ∧
      ((["g"] : List String) = [] → sWit.placeholder = Option.none →
        isEqual ([] : List LayoutItem) sWit.layouts = true →
        getDerivedStateFromProps {} sWit ["g"] = Option.none))) ∧
    getDerivedStateFromProps {} sWit ["g"] = Option.none := by
  have h := layouts_enter_via_reLayout ⟨[], [], 0⟩ {} sWit ["g"]
  exact ⟨⟨h.1, h.2.1, h.2.2.1, h.2.2.2⟩,
    h.2.1 (Or.inl (by decide))⟩

/-- C7: contrary to the claim, not every such operation is a no-op.
`removeOtherGroupItem` with an absent id and `onCardItemDragEnd` with no
recorded dragging item or an absent id are defensive no-ops, but
`onDrop` with a dragged id absent from the layouts evaluates
`layouts[-1]`, which is `undefined`, and the following
`delete layoutItem.placeholder` throws a TypeError (modelled by
`Option.none`). -/
theorem missing_item_ops :
    (removeOtherGroupItem
      [("g", { compactType := CompactType.vertical, cols := 4,
               layouts := [{ i := "b", x := 0, y := 0, w := 1, h := 1 }] })]
      { i := "x", x := 0, y := 0, w := 1, h := 1 } "g" =
      [("g", { compactType := CompactType.vertical, cols := 4,
               layouts := [{ i := "b", x := 0, y := 0, w := 1, h := 1 }] })]) ∧
    (onCardItemDragEnd { layouts := [] } ["g"] false false =
      some ({ layouts := [] }, ["g"], false)) ∧
    (onCardItemDragEnd
        { layouts := [],
          draggingItem := some { i := "x", x := 0, y := 0, w := 1, h := 1 } }
        ["g"] false false =
      some ({ layouts := [],
              draggingItem :=
                some { i := "x", x := 0, y := 0, w := 1, h := 1 } },
            ["g"], false)) ∧
    (onDrop
        { layouts := [],
          draggingItem := some { i := "x", x := 0, y := 0, w := 1, h := 1 } }
        ["g"] true = Option.none) := by
  refine ⟨by decide, by decide, by decide, by decide⟩

/-- C10: during a drag, when the grid cell computed from the pointer
offset equals the previously recorded cell, `moveItem` returns early:
the layouts are unchanged except for the placeholder flag set on the
dragged item just before the check, and `draggingItem` and
`prevPosition` keep their values — `moveElement` and `compact` are not
applied. -/
theorem moveItem_early_return (props : LayoutProps) (s : LayoutStates)
    (li : LayoutItem) (pos : Nat × Nat)
    (hprev : s.prevPosition = some pos) :
    moveItem props s li pos =
      { s with layouts := setPlaceholder li.i s.layouts } := by
  rw [moveItem]
  rw [if_pos (by rw [hprev]; exact beq_self_eq_true _)]

theorem foldMin_none (g : LayoutItem → Bool) (f : LayoutItem → Nat) :
    ∀ (cs : List LayoutItem) (acc : Option Nat),
      foldMin g f cs acc = Option.none →
        acc = Option.none ∧ ∀ c ∈ cs, g c ≠ true := by
  intro cs
  induction cs with
  | nil =>
    intro acc h
    exact ⟨h, by simp⟩
  | cons c rest ih =>
    intro acc h
    simp only [foldMin] at h
    by_cases hc : g c = true
    · rw [if_pos hc] at h
      exfalso
      have := (ih _ h).1
      cases acc <;> simp at this
    · rw [if_neg hc] at h
      obtain ⟨ha, hall⟩ := ih acc h
      refine ⟨ha, fun x hx => ?_⟩
      rcases List.mem_cons.mp hx with hx | hx
      · exact hx ▸ hc
      · exact hall x hx

theorem foldMin_some (g : LayoutItem → Bool) (f : LayoutItem → Nat) :
    ∀ (cs : List LayoutItem) (acc : Option Nat) (v : Nat),
      foldMin g f cs acc = some v →
        (∀ c ∈ cs, g c = true → v ≤ f c) ∧
        (acc = some v ∨ ∃ c, c ∈ cs ∧ g c = true ∧ f c = v) ∧
        (∀ u, acc = some u → v ≤ u) := by
  intro cs
  induction cs with
  | nil =>
    intro acc v h
    have h' : acc = some v := h
    refine ⟨by simp, Or.inl h', fun u hu => ?_⟩
    rw [h'] at hu
    exact Nat.le_of_eq (Option.some_inj.mp hu)
  | cons c rest ih =>
    intro acc v h
    simp only [foldMin] at h
    by_cases hc : g c = true
    · rw [if_pos hc] at h
      cases acc with
      | none =>
        obtain ⟨hbound, horig, hacc⟩ := ih (some (f c)) v h
        refine ⟨?_, ?_, by simp⟩
        · intro x hx hgx
          rcases List.mem_cons.mp hx with hx | hx
          · exact hx ▸ hacc (f c) rfl
          · exact hbound x hx hgx
        · rcases horig with horig | ⟨x, hx, hgx, hfx⟩
          · exact Or.inr ⟨c, List.mem_cons_self _ _, hc,
              (Option.some_inj.mp horig)⟩
          · exact Or.inr ⟨x, List.mem_cons_of_mem _ hx, hgx, hfx⟩
      | some u =>
        obtain ⟨hbound, horig, hacc⟩ := ih (some (min u (f c))) v h
        have hvmin : v ≤ min u (f c) ∨ some (min u (f c)) = some v := by
          rcases horig with horig | _
          · exact Or.inr horig
          · exact Or.inl (hacc _ rfl)
        have hvle : v ≤ min u (f c) := by
          rcases hvmin with hle | heq
          · exact hle
          · exact Nat.le_of_eq (Option.some_inj.mp heq).symm
        refine ⟨?_, ?_, ?_⟩
        · intro x hx hgx
          rcases List.mem_cons.mp hx with hx | hx
          · exact hx ▸ Nat.le_trans hvle (Nat.min_le_right _ _)
          · exact hbound x hx hgx
        · rcases horig with horig | ⟨x, hx, hgx, hfx⟩
          · have hv : v = min u (f c) := (Option.some_inj.mp horig).symm
            rcases Nat.le_total u (f c) with hle | hle
            · exact Or.inl (by rw [hv, Nat.min_eq_left hle])
            · exact Or.inr ⟨c, List.mem_cons_self _ _, hc,
                by rw [hv, Nat.min_eq_right hle]⟩
          · exact Or.inr ⟨x, List.mem_cons_of_mem _ hx, hgx, hfx⟩
        · intro u' hu'
          have : u' = u := Option.some_inj.mp hu'.symm
          exact this ▸ Nat.le_trans hvle (Nat.min_le_left _ _)
    · rw [if_neg hc] at h
      obtain ⟨hbound, horig, hacc⟩ := ih acc v h
      refine ⟨?_, ?_, hacc⟩
      · intro x hx hgx
        rcases List.mem_cons.mp hx with hx | hx
        · exact absurd (hx ▸ hgx) hc
        · exact hbound x hx hgx
      · rcases horig with horig | ⟨x, hx, hgx, hfx⟩
        · exact Or.inl horig
        · exact Or.inr ⟨x, List.mem_cons_of_mem _ hx, hgx, hfx⟩

theorem resizeAdjust_fields (layouts : List LayoutItem) (w h : Nat)
    (l : LayoutItem) (colls : List LayoutItem)
    (hcolls : colls =
      (getAllCollisions layouts { l with w := w, h := h }).filter
        (fun c => c.i != l.i))
    (hne : colls ≠ []) :
    (resizeAdjust true layouts w h l).x = l.x ∧
    (resizeAdjust true layouts w h l).y = l.y ∧
    (resizeAdjust true layouts w h l).w =
      (match foldMin (fun c => l.x < c.x) (fun c => c.x) colls
          Option.none with
       | some v => v - l.x
       | Option.none => l.w) ∧
    (resizeAdjust true layouts w h l).h =
      (match foldMin (fun c => l.y < c.y) (fun c => c.y) colls
          Option.none with
       | some v => v - l.y
       | Option.none => l.h) := by
  have hemp : colls.isEmpty = false := by
    cases colls with
    | nil => exact absurd rfl hne
    | cons a as => rfl
  simp only [resizeAdjust, ← hcolls, hemp, Bool.not_false, Bool.and_true,
    if_true]
  cases hlx : foldMin (fun c => decide (l.x < c.x)) (fun c => c.x) colls
      Option.none <;>
    cases hly : foldMin (fun c => decide (l.y < c.y)) (fun c => c.y) colls
        Option.none <;>
    exact ⟨rfl, rfl, rfl, rfl⟩

/-- C5: during a resize with `preventCollision` set and a colliding
requested size, the item keeps its position and each axis is clipped
independently: the width becomes `leastX - x` for the least `x` over
colliding items strictly to the right (unchanged when there is none),
the height analogously; with no collision the requested size is taken
as is. -/
theorem resize_prevent_collision_clips (layouts : List LayoutItem)
    (w h : Nat) (l : LayoutItem) (colls : List LayoutItem)
    (hcolls : colls =
      (getAllCollisions layouts { l with w := w, h := h }).filter
        (fun c => c.i != l.i)) :
    (colls ≠ [] →
      (resizeAdjust true layouts w h l).x = l.x ∧
      (resizeAdjust true layouts w h l).y = l.y ∧
      ((∀ c ∈ colls, ¬ l.x < c.x) →
        (resizeAdjust true layouts w h l).w = l.w) ∧
      (∀ c ∈ colls, l.x < c.x →
        (resizeAdjust true layouts w h l).w + l.x ≤ c.x) ∧
      ((∃ c ∈ colls, l.x < c.x) → ∃ c ∈ colls, l.x < c.x ∧
        (resizeAdjust true layouts w h l).w = c.x - l.x) ∧
      ((∀ c ∈ colls, ¬ l.y < c.y) →
        (resizeAdjust true layouts w h l).h = l.h) ∧
      (∀ c ∈ colls, l.y < c.y →
        (resizeAdjust true layouts w h l).h + l.y ≤ c.y) ∧
      ((∃ c ∈ colls, l.y < c.y) → ∃ c ∈ colls, l.y < c.y ∧
        (resizeAdjust true layouts w h l).h = c.y - l.y)) ∧
    (colls = [] →
      (resizeAdjust true layouts w h l).w = w ∧
      (resizeAdjust true layouts w h l).h = h) := by
  constructor
  · intro hne
    obtain ⟨hx, hy, hw, hh⟩ :=
      resizeAdjust_fields layouts w h l colls hcolls hne
    refine ⟨hx, hy, ?_, ?_, ?_, ?_, ?_, ?_⟩
    · intro hall
      rw [hw]
      cases hlx : foldMin (fun c => decide (l.x < c.x)) (fun c => c.x)
          colls Option.none with
      | none => rfl
      | some v =>
        obtain ⟨_, horig, _⟩ := foldMin_some _ _ colls Option.none v hlx
        rcases horig with horig | ⟨c, hc, hgc, _⟩
        · exact absurd horig (by simp)
        · exact absurd (of_decide_eq_true hgc) (hall c hc)
    · intro c hc hlt
      rw [hw]
      cases hlx : foldMin (fun c => decide (l.x < c.x)) (fun c => c.x)
          colls Option.none with
      | none =>
        obtain ⟨_, hall⟩ := foldMin_none _ _ colls Option.none hlx
        exact absurd (decide_eq_true hlt) (hall c hc)
      | some v =>
        obtain ⟨hbound, horig, _⟩ :=
          foldMin_some _ _ colls Option.none v hlx
        have hvle : v ≤ c.x := hbound c hc (decide_eq_true hlt)
        rcases horig with horig | ⟨c0, _, hgc0, hfc0⟩
        · exact absurd horig (by simp)
        · have hxlt : l.x < v := hfc0 ▸ of_decide_eq_true hgc0
          show v - l.x + l.x ≤ c.x
          omega
    · rintro ⟨c, hc, hlt⟩
      rw [hw]
      cases hlx : foldMin (fun c => decide (l.x < c.x)) (fun c => c.x)
          colls Option.none with
      | none =>
        obtain ⟨_, hall⟩ := foldMin_none _ _ colls Option.none hlx
        exact absurd (decide_eq_true hlt) (hall c hc)
      | some v =>
        obtain ⟨_, horig, _⟩ := foldMin_some _ _ colls Option.none v hlx
        rcases horig with horig | ⟨c0, hc0, hgc0, hfc0⟩
        · exact absurd horig (by simp)
        · exact ⟨c0, hc0, of_decide_eq_true hgc0, by rw [hfc0]⟩
    · intro hall
      rw [hh]
      cases hly : foldMin (fun c => decide (l.y < c.y)) (fun c => c.y)
          colls Option.none with
      | none => rfl
      | some v =>
        obtain ⟨_, horig, _⟩ := foldMin_some _ _ colls Option.none v hly
        rcases horig with horig | ⟨c, hc, hgc, _⟩
        · exact absurd horig (by simp)
        · exact absurd (of_decide_eq_true hgc) (hall c hc)
    · intro c hc hlt
      rw [hh]
      cases hly : foldMin (fun c => decide (l.y < c.y)) (fun c => c.y)
          colls Option.none with
      | none =>
        obtain ⟨_, hall⟩ := foldMin_none _ _ colls Option.none hly
        exact absurd (decide_eq_true hlt) (hall c hc)
      | some v =>
        obtain ⟨hbound, horig, _⟩ :=
          foldMin_some _ _ colls Option.none v hly
        have hvle : v ≤ c.y := hbound c hc (decide_eq_true hlt)
        rcases horig with horig | ⟨c0, _, hgc0, hfc0⟩
        · exact absurd horig (by simp)
        · have hylt : l.y < v := hfc0 ▸ of_decide_eq_true hgc0
          show v - l.y + l.y ≤ c.y
          omega
    · rintro ⟨c, hc, hlt⟩
      rw [hh]
      cases hly : foldMin (fun c => decide (l.y < c.y)) (fun c => c.y)
          colls Option.none with
      | none =>
        obtain ⟨_, hall⟩ := foldMin_none _ _ colls Option.none hly
        exact absurd (decide_eq_true hlt) (hall c hc)
      | some v =>
        obtain ⟨_, horig, _⟩ := foldMin_some _ _ colls Option.none v hly
        rcases horig with horig | ⟨c0, hc0, hgc0, hfc0⟩
        · exact absurd horig (by simp)
        · exact ⟨c0, hc0, of_decide_eq_true hgc0, by rw [hfc0]⟩
  · intro hnil
    have hemp : ((getAllCollisions layouts { l with w := w, h := h }).filter
        (fun c => c.i != l.i)).isEmpty = true := by
      rw [← hcolls, hnil]
      rfl
    simp only [resizeAdjust, hemp, Bool.not_true, Bool.and_false,
      if_false]
    exact ⟨rfl, rfl⟩

/-- Concrete fixtures for the resize-clipping witness. -/
def rzL : LayoutItem := { i := "a", x := 0, y := 0, w := 2, h := 2 }

def rzB : LayoutItem := { i := "b", x := 3, y := 0, w := 2, h := 2 }

theorem resize_prevent_collision_clips_witness :
    ([rzB] =
      (getAllCollisions [rzL, rzB] { rzL with w := 4, h := 4 }).filter
        (fun c => c.i != rzL.i)) ∧
    (resizeAdjust true [rzL, rzB] 4 4 rzL).x = rzL.x ∧
    (resizeAdjust true [rzL, rzB] 4 4 rzL).w + rzL.x ≤ rzB.x := by
  have h := resize_prevent_collision_clips [rzL, rzB] 4 4 rzL [rzB]
    (by decide)
  exact ⟨by decide, (h.1 (by decide)).1,
    (h.1 (by decide)).2.2.2.1 rzB (List.mem_cons_self _ _) (by decide)⟩

theorem moveItem_early_return_witness :
    moveItem {} { layouts := [{ i := "a", x := 0, y := 0, w := 1, h := 1 }],
                  prevPosition := some (2, 3) }
        { i := "a", x := 0, y := 0, w := 1, h := 1 } (2, 3) =
      { layouts := [{ i := "a", x := 0, y := 0, w := 1, h := 1,
                      placeholder := true }],
        prevPosition := some (2, 3) } := by
  have h := moveItem_early_return {}
    { layouts := [{ i := "a", x := 0, y := 0, w := 1, h := 1 }],
      prevPosition := some (2, 3) }
    { i := "a", x := 0, y := 0, w := 1, h := 1 } (2, 3) rfl
  rw [h]
  decide

/-! ## Compaction preserves item identities -/

theorem i_clampItem (t : CompactType) (cols : Nat) (l : LayoutItem) :
    (clampItem t cols l).i = l.i := by cases t <;> rfl

theorem i_compactItem (t : CompactType) (cols : Nat)
    (placed : List LayoutItem) (l : LayoutItem) :
    (compactItem t cols placed l).i = l.i := by
  rw [compactItem]
  conv_lhs => rw [(slide_eq_setAxisPos t placed (clampItem t cols l)).1]
  rw [i_setAxisPos, i_clampItem]

theorem reassemble_map_i :
    ∀ (L : List LayoutItem) (n : Nat) (D : List (Nat × LayoutItem)),
      (∀ q ∈ D, ∀ j, ∀ hj : j < L.length, q.1 = n + j →
        q.2.i = (L.get ⟨j, hj⟩).i) →
      (reassemble n L D).map (fun l => l.i) = L.map (fun l => l.i) := by
  intro L
  induction L with
  | nil => intro n D H; rfl
  | cons l rest ih =>
    intro n D H
    rw [reassemble, List.map_cons, List.map_cons]
    refine congrArg₂ _ ?_ (ih (n + 1) D ?_)
    · by_cases hs : l.static
      · rw [if_pos hs]
      · rw [if_neg hs]
        cases hf : D.find? (fun q => q.1 == n) with
        | none => rfl
        | some q =>
          have hq : q ∈ D := List.mem_of_find?_eq_some hf
          have hqn : q.1 = n := by
            have hpq := List.find?_some hf
            simpa using hpq
          exact H q hq 0 (by simp) (by omega)
    · intro q hq j hj hqn
      exact H q hq (j + 1) (by simpa using hj) (by omega)

theorem compact_map_i (L : List LayoutItem) (t : CompactType)
    (cols : Nat) :
    (compact L t cols).map (fun l => l.i) = L.map (fun l => l.i) := by
  by_cases ht : t = CompactType.none
  · rw [ht]; rfl
  · rw [compact_eq_of_ne_none ht]
    refine reassemble_map_i L 0 _ ?_
    intro q hq j hj hqn
    obtain ⟨k, X⟩ := q
    obtain ⟨S₁, lo, S₂, hS, hX⟩ := mem_placeAll hq
    have hmem : (k, lo) ∈ indexed 0 L := by
      have hperm := insertionSort_perm (entryLe t) (indexed 0 L)
      refine hperm.mem_iff.mp ?_
      rw [hS]
      exact List.mem_append_right _ (List.mem_cons_self _ _)
    obtain ⟨j₀, hj₀, hk, hget, _⟩ := mem_indexed hmem
    have hjj : j₀ = j := by
      have hqn' : k = 0 + j := hqn
      omega
    subst hjj
    rw [hX, i_compactItem, ← hget]

/-! ## Registry lemmas for the cross-group removal -/

/-- Group `g` in registry `r` holds no item with id `a`. -/
abbrev itemFree (r : Registry) (g : String) (a : String) : Prop :=
  ∀ inst, lookupGroup r g = some inst → ∀ l ∈ inst.layouts, l.i ≠ a

/-- Every registered group has duplicate-free item ids (the engine's
insertion discipline maintains this). -/
abbrev registryNodupIds (r : Registry) : Prop :=
  ∀ e ∈ r, (e.2.layouts.map (fun l => l.i)).Nodup

theorem erase_found_free {L : List LayoutItem} {a : String} {idx : Nat}
    (hnd : (L.map (fun l => l.i)).Nodup)
    (hidx : L.findIdx? (fun l => l.i == a) = some idx) :
    ∀ l ∈ L.eraseIdx idx, l.i ≠ a := by
  intro l hl hla
  obtain ⟨hlt, hp, _⟩ := List.findIdx?_eq_some_iff_getElem.mp hidx
  obtain ⟨j, hj, hjne, hjl⟩ := List.mem_eraseIdx_iff_getElem.mp hl
  have hlt2 : idx < (L.map (fun l => l.i)).length := by simpa using hlt
  have hj2 : j < (L.map (fun l => l.i)).length := by simpa using hj
  have h1 : (L.map (fun l => l.i))[idx] = a := by
    rw [List.getElem_map]
    exact beq_iff_eq.mp hp
  have h2 : (L.map (fun l => l.i))[j] = a := by
    rw [List.getElem_map, hjl]
    exact hla
  exact hjne ((List.Nodup.getElem_inj_iff hnd).mp (h2.trans h1.symm))

theorem lookupGroup_mem {r : Registry} {g : String} {inst : LayoutInst}
    (h : lookupGroup r g = some inst) : ∃ e ∈ r, e.2 = inst := by
  rw [lookupGroup] at h
  cases hf : r.find? (fun e => e.1 == g) with
  | none =>
    rw [hf] at h
    exact absurd h (by simp)
  | some e =>
    rw [hf] at h
    exact ⟨e, List.mem_of_find?_eq_some hf, Option.some_inj.mp h⟩

theorem mem_updateGroup {r : Registry} {g : String} {inst : LayoutInst}
    {e : String × LayoutInst} (h : e ∈ updateGroup r g inst) :
    e.2 = inst ∨ e ∈ r := by
  rw [updateGroup] at h
  obtain ⟨e0, he0, heq⟩ := List.mem_map.mp h
  by_cases hc : (e0.1 == g) = true
  · rw [if_pos hc] at heq
    exact Or.inl (by rw [← heq])
  · rw [if_neg hc] at heq
    exact Or.inr (heq ▸ he0)

theorem lookupGroup_updateGroup_ne (r : Registry) {g g2 : String}
    (inst : LayoutInst) (hne : g ≠ g2) :
    lookupGroup (updateGroup r g2 inst) g = lookupGroup r g := by
  rw [lookupGroup, lookupGroup, updateGroup]
  induction r with
  | nil => rfl
  | cons e rest ih =>
    rw [List.map_cons]
    by_cases he : (e.1 == g2) = true
    · rw [if_pos he]
      have heg : ¬(e.1 == g) = true := fun hk =>
        hne ((beq_iff_eq.mp hk).symm.trans (beq_iff_eq.mp he))
      rw [List.find?_cons_of_neg _ (by simpa using heg),
        List.find?_cons_of_neg _ (by simpa using heg)]
      exact ih
    · rw [if_neg he]
      by_cases heg : (e.1 == g) = true
      · rw [List.find?_cons_of_pos _ (by simpa using heg),
          List.find?_cons_of_pos _ (by simpa using heg)]
      · rw [List.find?_cons_of_neg _ (by simpa using heg),
          List.find?_cons_of_neg _ (by simpa using heg)]
        exact ih

theorem lookupGroup_updateGroup_self {r : Registry} {g : String}
    {inst0 inst : LayoutInst} (h : lookupGroup r g = some inst0) :
    lookupGroup (updateGroup r g inst) g = some inst := by
  rw [lookupGroup] at h
  rw [lookupGroup, updateGroup]
  induction r with
  | nil => simp [List.find?] at h
  | cons e rest ih =>
    rw [List.map_cons]
    by_cases he : (e.1 == g) = true
    · rw [if_pos he, List.find?_cons_of_pos _ (by simpa using he)]
    · rw [if_neg he, List.find?_cons_of_neg _ (by simpa using he)]
      rw [List.find?_cons_of_neg _ (by simpa using he)] at h
      exact ih h

theorem registryNodupIds_removeOther {r : Registry} {item : LayoutItem}
    {g : String} (hinv : registryNodupIds r) :
    registryNodupIds (removeOtherGroupItem r item g) := by
  cases hl : lookupGroup r g with
  | none =>
    simp only [removeOtherGroupItem, hl]
    exact hinv
  | some inst =>
    cases hidx : inst.layouts.findIdx? (fun l => l.i == item.i) with
    | none =>
      simp only [removeOtherGroupItem, hl, hidx]
      exact hinv
    | some idx =>
      simp only [removeOtherGroupItem, hl, hidx]
      intro e he
      rcases mem_updateGroup he with h2 | h2
      · rw [h2]
        show ((compact (inst.layouts.eraseIdx idx) inst.compactType
          inst.cols).map (fun l => l.i)).Nodup
        rw [compact_map_i]
        obtain ⟨e0, he0, he0i⟩ := lookupGroup_mem hl
        exact List.Nodup.sublist
          ((List.eraseIdx_sublist inst.layouts idx).map _)
          (he0i ▸ hinv e0 he0)
      · exact hinv e h2

theorem itemFree_removeOther_self {r : Registry} {item : LayoutItem}
    {g : String} (hinv : registryNodupIds r) :
    itemFree (removeOtherGroupItem r item g) g item.i := by
  cases hl : lookupGroup r g with
  | none =>
    simp only [removeOtherGroupItem, hl]
    intro inst hli
    rw [hl] at hli
    exact absurd hli (by simp)
  | some inst0 =>
    cases hidx : inst0.layouts.findIdx? (fun l => l.i == item.i) with
    | none =>
      simp only [removeOtherGroupItem, hl, hidx]
      intro inst hli
      rw [hl] at hli
      have hi0 : inst = inst0 := (Option.some_inj.mp hli).symm
      subst hi0
      intro l hlmem
      simpa using List.findIdx?_eq_none_iff.mp hidx l hlmem
    | some idx =>
      simp only [removeOtherGroupItem, hl, hidx]
      intro inst hli
      rw [lookupGroup_updateGroup_self hl] at hli
      have hi0 : inst = { inst0 with
          layouts := compact (inst0.layouts.eraseIdx idx)
            inst0.compactType inst0.cols,
          draggingItem := Option.none,
          prevPosition := Option.none } := (Option.some_inj.mp hli).symm
      subst hi0
      intro l hlmem
      have hmap : l.i ∈ (inst0.layouts.eraseIdx idx).map (fun l => l.i) := by
        rw [← compact_map_i (inst0.layouts.eraseIdx idx) inst0.compactType
          inst0.cols]
        exact List.mem_map_of_mem _ hlmem
      obtain ⟨l0, hl0, hl0i⟩ := List.mem_map.mp hmap
      obtain ⟨e0, he0, he0i⟩ := lookupGroup_mem hl
      have hfree := erase_found_free (he0i ▸ hinv e0 he0) hidx l0 hl0
      rw [← hl0i]
      exact hfree

theorem itemFree_removeOther_preserve {r : Registry} {item : LayoutItem}
    {g g2 : String} (hfree : itemFree r g item.i) :
    itemFree (removeOtherGroupItem r item g2) g item.i := by
  by_cases hgg : g = g2
  · subst hgg
    cases hl : lookupGroup r g with
    | none =>
      simp only [removeOtherGroupItem, hl]
      exact hfree
    | some inst0 =>
      cases hidx : inst0.layouts.findIdx? (fun l => l.i == item.i) with
      | none =>
        simp only [removeOtherGroupItem, hl, hidx]
        exact hfree
      | some idx =>
        exfalso
        have hnone : inst0.layouts.findIdx? (fun l => l.i == item.i) =
            Option.none := by
          rw [List.findIdx?_eq_none_iff]
          intro l hlmem
          exact beq_eq_false_iff_ne.mpr (hfree inst0 hl l hlmem)
        rw [hnone] at hidx
        exact absurd hidx (by simp)
  · cases hl : lookupGroup r g2 with
    | none =>
      simp only [removeOtherGroupItem, hl]
      exact hfree
    | some inst0 =>
      cases hidx : inst0.layouts.findIdx? (fun l => l.i == item.i) with
      | none =>
        simp only [removeOtherGroupItem, hl, hidx]
        exact hfree
      | some idx =>
        simp only [removeOtherGroupItem, hl, hidx]
        intro inst hli
        rw [lookupGroup_updateGroup_ne r _ hgg] at hli
        exact hfree inst hli

theorem fold_registryNodupIds (item : LayoutItem) (self : String) :
    ∀ (hgl : List String) (r : Registry), registryNodupIds r →
      registryNodupIds (hgl.foldl
        (fun acc g => if g ≠ self then removeOtherGroupItem acc item g
          else acc) r) := by
  intro hgl
  induction hgl with
  | nil => intro r h; exact h
  | cons g0 rest ih =>
    intro r h
    rw [List.foldl_cons]
    refine ih _ ?_
    by_cases hgs : g0 ≠ self
    · rw [if_pos hgs]
      exact registryNodupIds_removeOther h
    · rw [if_neg hgs]
      exact h

theorem fold_itemFree_preserve (item : LayoutItem) (self g : String) :
    ∀ (hgl : List String) (r : Registry), registryNodupIds r →
      itemFree r g item.i →
      itemFree (hgl.foldl
        (fun acc g2 => if g2 ≠ self then removeOtherGroupItem acc item g2
          else acc) r) g item.i := by
  intro hgl
  induction hgl with
  | nil => intro r _ h; exact h
  | cons g0 rest ih =>
    intro r hinv h
    rw [List.foldl_cons]
    by_cases hgs : g0 ≠ self
    · rw [if_pos hgs]
      exact ih _ (registryNodupIds_removeOther hinv)
        (itemFree_removeOther_preserve h)
    · rw [if_neg hgs]
      exact ih _ hinv h

theorem fold_itemFree_establish (item : LayoutItem) (self : String) :
    ∀ (hgl : List String) (r : Registry), registryNodupIds r →
      ∀ g ∈ hgl, g ≠ self →
        itemFree (hgl.foldl
          (fun acc g2 => if g2 ≠ self then removeOtherGroupItem acc item g2
            else acc) r) g item.i := by
  intro hgl
  induction hgl with
  | nil =>
    intro r _ g hg
    simp at hg
  | cons g0 rest ih =>
    intro r hinv g hg hgs
    rw [List.foldl_cons]
    rcases List.mem_cons.mp hg with rfl | hg2
    · rw [if_pos hgs]
      exact fold_itemFree_preserve item self g rest _
        (registryNodupIds_removeOther hinv)
        (itemFree_removeOther_self hinv)
    · by_cases hg0 : g0 ≠ self
      · rw [if_pos hg0]
        exact ih _ (registryNodupIds_removeOther hinv) g hg2 hgs
      · rw [if_neg hg0]
        exact ih _ hinv g hg2 hgs

/-- C4: when more than one group is hovered, `removeHoverdGroupItem`
removes the dragged item (by id) from the layouts of every hovered
group other than the current one — recompacting each such group — and
afterwards the hover list contains exactly the current group (under the
invariant that every registered group's item ids are duplicate-free). -/
theorem hovered_groups_release_item (r : Registry) (hg : List String)
    (self : String) (item : LayoutItem)
    (hlen : 1 < hg.length)
    (hinv : registryNodupIds r) :
    (removeHoverdGroupItem r hg self item).2 = [self] ∧
    ∀ g ∈ hg, g ≠ self →
      itemFree (removeHoverdGroupItem r hg self item).1 g item.i := by
  rw [removeHoverdGroupItem, if_pos hlen]
  exact ⟨rfl, fun g hgm hgs =>
    fold_itemFree_establish item self hg r hinv g hgm hgs⟩

/-- A two-group registry for the release witness. -/
def rWit : Registry :=
  [("g1", { compactType := CompactType.vertical, cols := 4,
            layouts := [{ i := "a", x := 0, y := 0, w := 1, h := 1 },
                        { i := "b", x := 1, y := 0, w := 1, h := 1 }] }),
   ("s", { compactType := CompactType.vertical, cols := 4,
           layouts := [{ i := "a", x := 0, y := 0, w := 1, h := 1 }] })]

theorem hovered_groups_release_item_witness :
    (1 < (["g1", "s"] : List String).length ∧ registryNodupIds rWit) ∧
    ((removeHoverdGroupItem rWit ["g1", "s"] "s"
        { i := "a", x := 0, y := 0, w := 1, h := 1 }).2 = ["s"] ∧
      ∀ g ∈ (["g1", "s"] : List String), g ≠ "s" →
        itemFree (removeHoverdGroupItem rWit ["g1", "s"] "s"
          { i := "a", x := 0, y := 0, w := 1, h := 1 }).1 g "a") :=
  ⟨⟨by decide, by decide⟩,
    hovered_groups_release_item rWit ["g1", "s"] "s"
      { i := "a", x := 0, y := 0, w := 1, h := 1 } (by decide) (by decide)⟩

/-! ## Injectivity of the decimal rendering of the group counter -/

/-- Fuel-structured decimal digits of `n` (most significant first),
agreeing with `Nat.toDigitsCore` at base 10 for sufficient fuel. -/
def decReprAux : Nat → Nat → List Char
  | 0, _ => []
  | fuel + 1, n =>
    if n / 10 = 0 then [Nat.digitChar (n % 10)]
    else decReprAux fuel (n / 10) ++ [Nat.digitChar (n % 10)]

theorem toDigitsCore_eq :
    ∀ (fuel n : Nat) (ds : List Char), n < 10 ^ fuel →
      Nat.toDigitsCore 10 fuel n ds = decReprAux fuel n ++ ds := by
  intro fuel
  induction fuel with
  | zero => intro n ds h; rfl
  | succ fuel ih =>
    intro n ds h
    simp only [Nat.toDigitsCore, decReprAux]
    by_cases h0 : n / 10 = 0
    · rw [if_pos h0, if_pos h0]
      rfl
    · rw [if_neg h0, if_neg h0]
      rw [ih (n / 10) (Nat.digitChar (n % 10) :: ds)
        ((Nat.div_lt_iff_lt_mul (by norm_num)).mpr
          (by rw [← pow_succ]; exact h))]
      rw [List.append_assoc]
      rfl

theorem decReprAux_ne_nil (fuel n : Nat) :
    decReprAux (fuel + 1) n ≠ [] := by
  rw [decReprAux]
  by_cases h0 : n / 10 = 0
  · rw [if_pos h0]
    simp
  · rw [if_neg h0]
    simp

theorem digitChar_inj_lt :
    ∀ x, x < 10 → ∀ y, y < 10 →
      Nat.digitChar x = Nat.digitChar y → x = y := by decide

theorem decReprAux_inj :
    ∀ (f1 f2 a b : Nat), a < 10 ^ f1 → b < 10 ^ f2 →
      decReprAux f1 a = decReprAux f2 b → a = b := by
  intro f1
  induction f1 with
  | zero =>
    intro f2 a b ha hb heq
    have ha0 : a = 0 := by
      have : a < 1 := by simpa using ha
      omega
    cases f2 with
    | zero =>
      have hb0 : b = 0 := by
        have : b < 1 := by simpa using hb
        omega
      omega
    | succ f2 => exact absurd heq.symm (decReprAux_ne_nil f2 b)
  | succ f1 ih =>
    intro f2 a b ha hb heq
    cases f2 with
    | zero => exact absurd heq (decReprAux_ne_nil f1 a)
    | succ f2 =>
      rw [decReprAux, decReprAux] at heq
      by_cases ha0 : a / 10 = 0 <;> by_cases hb0 : b / 10 = 0
      · rw [if_pos ha0, if_pos hb0] at heq
        have hd : Nat.digitChar (a % 10) = Nat.digitChar (b % 10) := by
          simpa using heq
        have := digitChar_inj_lt (a % 10) (by omega) (b % 10) (by omega) hd
        omega
      · rw [if_pos ha0, if_neg hb0] at heq
        exfalso
        have hlen := congrArg List.length heq
        rw [List.length_append] at hlen
        simp only [List.length_singleton] at hlen
        have hnil : decReprAux f2 (b / 10) = [] :=
          List.length_eq_zero.mp (by omega)
        cases f2 with
        | zero =>
          have hb10 : b < 10 := by simpa using hb
          omega
        | succ f2a => exact decReprAux_ne_nil f2a (b / 10) hnil
      · rw [if_neg ha0, if_pos hb0] at heq
        exfalso
        have hlen := congrArg List.length heq
        rw [List.length_append] at hlen
        simp only [List.length_singleton] at hlen
        have hnil : decReprAux f1 (a / 10) = [] :=
          List.length_eq_zero.mp (by omega)
        cases f1 with
        | zero =>
          have ha10 : a < 10 := by simpa using ha
          omega
        | succ f1a => exact decReprAux_ne_nil f1a (a / 10) hnil
      · rw [if_neg ha0, if_neg hb0] at heq
        obtain ⟨h1, h2⟩ := List.append_inj' heq rfl
        have hd := digitChar_inj_lt (a % 10) (by omega) (b % 10) (by omega)
          (by simpa using h2)
        have hquot : a / 10 = b / 10 := by
          refine ih f2 (a / 10) (b / 10) ?_ ?_ h1
          · exact (Nat.div_lt_iff_lt_mul (by norm_num)).mpr
              (by rw [← pow_succ]; exact ha)
          · exact (Nat.div_lt_iff_lt_mul (by norm_num)).mpr
              (by rw [← pow_succ]; exact hb)
        omega

theorem lt_pow_succ_self (n : Nat) : n < 10 ^ (n + 1) :=
  lt_of_lt_of_le (Nat.lt_pow_self (by norm_num) n)
    (Nat.pow_le_pow_right (by norm_num) (Nat.le_succ n))

theorem natRepr_data_inj {a b : Nat}
    (h : (Nat.repr a).data = (Nat.repr b).data) : a = b := by
  have hdata : Nat.toDigits 10 a = Nat.toDigits 10 b := h
  rw [Nat.toDigits, Nat.toDigits,
    toDigitsCore_eq (a + 1) a [] (lt_pow_succ_self a),
    toDigitsCore_eq (b + 1) b [] (lt_pow_succ_self b),
    List.append_nil, List.append_nil] at hdata
  exact decReprAux_inj (a + 1) (b + 1) a b (lt_pow_succ_self a)
    (lt_pow_succ_self b) hdata

theorem anonymousGroupName_inj {a b : Nat}
    (h : anonymousGroupName a = anonymousGroupName b) : a = b := by
  rw [anonymousGroupName, anonymousGroupName] at h
  have hd := congrArg String.data h
  simp only [String.data_append] at hd
  exact natRepr_data_inj (List.append_cancel_left hd)

/-- C9: an anonymous construction (empty `group` prop) takes the name
`DEFAULT_GROUP ++ "_" ++ groupIndex`; the counter is incremented on
every construction (any props `pn`); two anonymous constructions at
different counter values get distinct names — so distinct keys in the
module-level registry — and the new instance is registered under its
name. -/
theorem anonymous_group_names_distinct (g g' : GlobalState)
    (p q pn : LayoutProps) (hp : p.group = "") (hq : q.group = "")
    (hlt : g.groupIndex < g'.groupIndex) :
    (constructLayout g p).2.1 = anonymousGroupName g.groupIndex ∧
    (constructLayout g pn).1.groupIndex = g.groupIndex + 1 ∧
    (constructLayout g p).2.1 ≠ (constructLayout g' q).2.1 ∧
    lookupGroup (constructLayout g p).1.groupLayouts
        (constructLayout g p).2.1 =
      some { compactType := p.compactType, cols := p.cols,
             layouts := reLayout p.layouts p.compactType p.cols } := by
  have hname : (constructLayout g p).2.1 =
      anonymousGroupName g.groupIndex := by
    show (if p.group == "" then anonymousGroupName g.groupIndex
      else p.group) = anonymousGroupName g.groupIndex
    rw [if_pos (by simp [hp])]
  have hname' : (constructLayout g' q).2.1 =
      anonymousGroupName g'.groupIndex := by
    show (if q.group == "" then anonymousGroupName g'.groupIndex
      else q.group) = anonymousGroupName g'.groupIndex
    rw [if_pos (by simp [hq])]
  refine ⟨hname, rfl, ?_, ?_⟩
  · rw [hname, hname']
    intro hcontra
    exact absurd (anonymousGroupName_inj hcontra) (by omega)
  · show lookupGroup (((constructLayout g p).2.1,
        ({ compactType := p.compactType, cols := p.cols,
           layouts := reLayout p.layouts p.compactType p.cols }
          : LayoutInst)) ::
        g.groupLayouts.filter (fun e => e.1 != (constructLayout g p).2.1))
      (constructLayout g p).2.1 = _
    rw [lookupGroup, List.find?_cons_of_pos _ (by simp)]

theorem anonymous_group_names_distinct_witness :
    (({} : LayoutProps).group = "" ∧ (0 : Nat) < 1) ∧
    ((constructLayout ⟨[], [], 0⟩ {}).2.1 = anonymousGroupName 0 ∧
      (constructLayout ⟨[], [], 0⟩ {}).1.groupIndex = 0 + 1 ∧
      (constructLayout ⟨[], [], 0⟩ {}).2.1 ≠
        (constructLayout ⟨[], [], 1⟩ {}).2.1 ∧
      lookupGroup (constructLayout ⟨[], [], 0⟩ {}).1.groupLayouts
          (constructLayout ⟨[], [], 0⟩ {}).2.1 =
        some { compactType := CompactType.vertical, cols := 12,
               layouts := reLayout [] CompactType.vertical 12 }) :=
  ⟨⟨rfl, by decide⟩,
    anonymous_group_names_distinct ⟨[], [], 0⟩ ⟨[], [], 1⟩ {} {} {}
      rfl rfl (by decide)⟩

end RglDnd
